import Mathlib

/-!
Verification of the `breo` repository core (crates/core) against its
natural-language specification, via a shallow embedding in Lean 4.

Conventions of the embedding:
* Rust `String` is Lean `String`; byte sequences (`Vec<u8>`, `&[u8]`) are
  `List Nat` (each element a byte value) except where the u8 range matters
  for a round-trip proof, where `Fin 256` is used.
* `serde_json::Value` is the inductive `Json` below.  `serde_json`'s default
  map is a `BTreeMap`, so objects built through map insertion keep their
  entries sorted by key; objects produced by serializing a Rust struct list
  the fields in declaration order.
* External library functions (SHA-256 from the `sha2` crate, the signing
  capability, the system clock) are parameters of the embedded operations:
  the digest is a bundled function together with its 32-byte-output
  contract, signatures are an arbitrary function argument, and clock values
  are passed explicitly where the source calls `now()`.
* Fallible Rust functions returning `Result<T>` become `Except Error T`;
  a Rust panic possibility is modelled by `Option`.
-/

namespace Breo

/-- Opaque model of an `f64` value.  The embedding never computes with
floats; a float is an uninterpreted token identified by a bit pattern.
Only finite values ever occur (serde_json cannot represent NaN/∞). -/
structure F64 where
  bits : Nat
deriving DecidableEq, Repr

/-- Abstract placeholder for the (lossy) Rust `u64 -> f64` cast.  No theorem
in this file depends on the value produced, only on the fact that the
result is a float. -/
def natToF64 (n : Nat) : F64 := ⟨n⟩

/-- Abstract placeholder for the Rust `i64 -> f64` cast. -/
def intToF64 (i : Int) : F64 := ⟨i.natAbs⟩

/-- `serde_json::Number`: one of `PosInt(u64)`, `NegInt(i64)` (always
negative in serde_json), `Float(f64)`.  Equality is variant-sensitive,
exactly as serde_json's manual `PartialEq` on `N`. -/
inductive JNum where
  | uint (n : Nat)
  | int (i : Int)
  | float (f : F64)
deriving DecidableEq, Repr

/-- `serde_json::Value`. -/
inductive Json where
  | null
  | bool (b : Bool)
  | num (n : JNum)
  | str (s : String)
  | arr (elems : List Json)
  | obj (fields : List (String × Json))
deriving Repr

mutual

def jeq : Json → Json → Bool
  | .null, .null => true
  | .bool a, .bool b => a == b
  | .num a, .num b => a == b
  | .str a, .str b => a == b
  | .arr a, .arr b => jeqList a b
  | .obj a, .obj b => jeqFields a b
  | _, _ => false

def jeqList : List Json → List Json → Bool
  | [], [] => true
  | a :: as, b :: bs => jeq a b && jeqList as bs
  | _, _ => false

def jeqFields : List (String × Json) → List (String × Json) → Bool
  | [], [] => true
  | (k, v) :: as, (k', v') :: bs => k == k' && jeq v v' && jeqFields as bs
  | _, _ => false

end

mutual

theorem jeq_iff : (a b : Json) → (jeq a b = true ↔ a = b)
  | .null, .null => by simp [jeq]
  | .null, .bool _ | .null, .num _ | .null, .str _ | .null, .arr _ | .null, .obj _ => by
    simp [jeq]
  | .bool _, .null | .bool _, .num _ | .bool _, .str _ | .bool _, .arr _ | .bool _, .obj _ => by
    simp [jeq]
  | .num _, .null | .num _, .bool _ | .num _, .str _ | .num _, .arr _ | .num _, .obj _ => by
    simp [jeq]
  | .str _, .null | .str _, .bool _ | .str _, .num _ | .str _, .arr _ | .str _, .obj _ => by
    simp [jeq]
  | .arr _, .null | .arr _, .bool _ | .arr _, .num _ | .arr _, .str _ | .arr _, .obj _ => by
    simp [jeq]
  | .obj _, .null | .obj _, .bool _ | .obj _, .num _ | .obj _, .str _ | .obj _, .arr _ => by
    simp [jeq]
  | .bool a, .bool b => by simp [jeq]
  | .num a, .num b => by simp [jeq]
  | .str a, .str b => by simp [jeq]
  | .arr a, .arr b => by simpa [jeq] using jeqList_iff a b
  | .obj a, .obj b => by simpa [jeq] using jeqFields_iff a b

theorem jeqList_iff : (as bs : List Json) → (jeqList as bs = true ↔ as = bs)
  | [], [] => by simp [jeqList]
  | [], _ :: _ => by simp [jeqList]
  | _ :: _, [] => by simp [jeqList]
  | a :: as, b :: bs => by
    simp [jeqList, jeq_iff a b, jeqList_iff as bs]

theorem jeqFields_iff : (as bs : List (String × Json)) → (jeqFields as bs = true ↔ as = bs)
  | [], [] => by simp [jeqFields]
  | [], _ :: _ => by simp [jeqFields]
  | _ :: _, [] => by simp [jeqFields]
  | (k, v) :: as, (k', v') :: bs => by
    simp [jeqFields, jeq_iff v v', jeqFields_iff as bs, Prod.ext_iff, and_assoc]

end

instance : DecidableEq Json := fun a b => decidable_of_iff _ (jeq_iff a b)

def Json.isObj : Json → Bool
  | .obj _ => true
  | _ => false

/-- `BTreeMap::insert` on an assoc list kept sorted by key (serde_json's
default object representation). -/
def mapInsert {α : Type} (k : String) (v : α) : List (String × α) → List (String × α)
  | [] => [(k, v)]
  | (k', v') :: rest =>
    if k < k' then (k, v) :: (k', v') :: rest
    else if k = k' then (k, v) :: rest
    else (k', v') :: mapInsert k v rest

/-- Build a serde_json object map from a field list, as the `json!` macro
does: successive `BTreeMap` inserts (so the result is sorted by key). -/
def mkObj {α : Type} (fields : List (String × α)) : List (String × α) :=
  fields.foldl (fun m kv => mapInsert kv.1 kv.2 m) []

/-- Rust `str::starts_with`, on the character lists underlying strings. -/
def strStartsWith (s pre : String) : Bool :=
  pre.data.isPrefixOf s.data

/-- Rust `str::strip_prefix`. -/
def stripPre (pre s : String) : Option String :=
  if strStartsWith s pre then some ⟨s.data.drop pre.data.length⟩ else none

/-- Byte view of a string (the source serializes JSON text to UTF-8 bytes;
code points stand in for bytes — no theorem depends on the byte values). -/
def strBytes (s : String) : List Nat :=
  s.data.map Char.toNat

/-- One hexadecimal digit, lower case (as `hex::encode`). -/
def hexDigitChar (d : Nat) : Char :=
  match d with
  | 0 => '0' | 1 => '1' | 2 => '2' | 3 => '3' | 4 => '4'
  | 5 => '5' | 6 => '6' | 7 => '7' | 8 => '8' | 9 => '9'
  | 10 => 'a' | 11 => 'b' | 12 => 'c' | 13 => 'd' | 14 => 'e'
  | _ => 'f'

/-- `hex::encode`: two hex characters per byte. -/
def hexEncode (bytes : List Nat) : List Char :=
  bytes.flatMap fun b => [hexDigitChar (b / 16 % 16), hexDigitChar (b % 16)]

theorem hexEncode_length (bytes : List Nat) :
    (hexEncode bytes).length = 2 * bytes.length := by
  induction bytes with
  | nil => rfl
  | cons b bs ih =>
    simp [hexEncode, List.flatMap_cons] at *
    omega

/-- The URL-safe base64 alphabet. -/
def b64Char (n : Nat) : Char :=
  "ABCDEFGHIJKLMNOPQRSTUVWXYZabcdefghijklmnopqrstuvwxyz0123456789-_".data.getD n 'A'

/-- `base64::engine::general_purpose::URL_SAFE_NO_PAD.encode`. -/
def b64urlEncode : List Nat → List Char
  | [] => []
  | [b1] => [b64Char (b1 / 4 % 64), b64Char (b1 % 4 * 16)]
  | [b1, b2] => [b64Char (b1 / 4 % 64), b64Char (b1 % 4 * 16 + b2 / 16 % 16),
                 b64Char (b2 % 16 * 4)]
  | b1 :: b2 :: b3 :: rest =>
    b64Char (b1 / 4 % 64) :: b64Char (b1 % 4 * 16 + b2 / 16 % 16) ::
    b64Char (b2 % 16 * 4 + b3 / 64 % 4) :: b64Char (b3 % 64) :: b64urlEncode rest

/-- The SHA-256 digest from the `sha2` crate: an external function bundled
with its contract that every digest is exactly 32 bytes long. -/
structure Sha256 where
  f : List Nat → List Nat
  len32 : ∀ xs, (f xs).length = 32

/-! ## JSON serialization (`serde_json::to_vec` / `to_string`)

A plain JSON printer.  Theorems never depend on the exact text produced,
only that serialization is a function of the value. -/

/-- JSON string escaping (quote and backslash; enough for a faithful
function — no theorem inspects the text). -/
def escChar (c : Char) : List Char :=
  if c = '"' ∨ c = '\\' then ['\\', c] else [c]

def serStr (s : String) : List Char :=
  '"' :: s.data.flatMap escChar ++ ['"']

def serNum : JNum → List Char
  | .uint n => (toString n).data
  | .int i => (toString i).data
  | .float f => (toString f.bits).data ++ ".0".data

mutual

def serJson : Json → List Char
  | .null => "null".data
  | .bool true => "true".data
  | .bool false => "false".data
  | .num n => serNum n
  | .str s => serStr s
  | .arr xs => '[' :: serJsonList xs ++ [']']
  | .obj fs => '{' :: serJsonFields fs ++ ['}']

def serJsonList : List Json → List Char
  | [] => []
  | [x] => serJson x
  | x :: xs => serJson x ++ ',' :: serJsonList xs

def serJsonFields : List (String × Json) → List Char
  | [] => []
  | [(k, v)] => serStr k ++ ':' :: serJson v
  | (k, v) :: fs => serStr k ++ ':' :: serJson v ++ ',' :: serJsonFields fs

end

/-- `serde_json::to_vec`: serialize a value to bytes. -/
def jsonToVec (v : Json) : List Nat :=
  (serJson v).map Char.toNat

/-! ## `crates/core/src/error.rs` -/

/-- The core error enum (`error.rs`). -/
inductive Error where
  | InvalidRecord (msg : String)
  | InvalidCommit (msg : String)
  | InvalidDid (msg : String)
  | InvalidCid (msg : String)
  | RepositoryError (msg : String)
  | AutomergeError (msg : String)
  | SerializationError (msg : String)
  | StorageError (msg : String)
  | CryptoError (msg : String)
  | NotFound (msg : String)
  | ValidationError (msg : String)
deriving DecidableEq, Repr

/-! ## `crates/core/src/types.rs` -/

/-- `Did`: a validated wrapper around a string. -/
structure Did where
  val : String
deriving DecidableEq, Repr

/-- `Did::new`: requires the `did:` scheme tag. -/
def Did.new (did : String) : Except Error Did :=
  if strStartsWith did "did:" then .ok ⟨did⟩
  else .error (.InvalidDid ("DID must start with 'did:' prefix: " ++ did))

/-- `Cid`: a validated wrapper around a string. -/
structure Cid where
  val : String
deriving DecidableEq, Repr

/-- `Cid::from_bytes` without the slice: digest the bytes, hex-encode, keep
the first 52 characters behind the `bafyrei` tag. -/
def Cid.fromBytesCore (sha : Sha256) (data : List Nat) : Cid :=
  ⟨"bafyrei" ++ ⟨(hexEncode (sha.f data)).take 52⟩⟩

/-- `Cid::from_bytes`, modelling the panic possibility of the Rust slice
`&hash_str[..52]` (which panics when the hex string is shorter than 52
characters): `none` is the panic. -/
def Cid.from_bytes (sha : Sha256) (data : List Nat) : Option Cid :=
  let hash_str := hexEncode (sha.f data)
  if 52 ≤ hash_str.length then some ⟨"bafyrei" ++ ⟨hash_str.take 52⟩⟩ else none

/-- `Cid::from_string`: requires the `bafy` content-address scheme tag. -/
def Cid.from_string (cid : String) : Except Error Cid :=
  if strStartsWith cid "bafy" then .ok ⟨cid⟩
  else .error (.InvalidCid ("Invalid CID format: " ++ cid))

/-- `Nsid`: a validated wrapper around a string. -/
structure Nsid where
  val : String
deriving DecidableEq, Repr

/-- `Nsid::new`: must contain a dot. -/
def Nsid.new (nsid : String) : Except Error Nsid :=
  if nsid.data.contains '.' then .ok ⟨nsid⟩
  else .error (.ValidationError ("Invalid NSID format: " ++ nsid))

/-- `RecordKey`: an unvalidated wrapper around a string. -/
structure RecordKey where
  val : String
deriving DecidableEq, Repr

/-- A `DateTime<Utc>` is represented by its RFC 3339 rendering, so
`to_rfc3339` is the identity on the representation. -/
abbrev Timestamp := String

/-- `Record` (`types.rs`). -/
structure Record where
  collection : Nsid
  rkey : RecordKey
  value : Json
  created_at : Timestamp
deriving DecidableEq, Repr

/-- `Record::validate`: the value must be a JSON object. -/
def Record.validate (r : Record) : Except Error Unit :=
  if r.value.isObj then .ok ()
  else .error (.ValidationError "Record value must be a JSON object")

/-- `Record::path`: `collection/rkey`. -/
def Record.path (r : Record) : String :=
  r.collection.val ++ "/" ++ r.rkey.val

/-- `Record::cid`: digest of the serialized value.  (The Rust function
returns `Result` only because serialization is fallible there; the
embedded serializer is total.) -/
def Record.cid (r : Record) (sha : Sha256) : Cid :=
  Cid.fromBytesCore sha (jsonToVec r.value)

/-- `CommitOp` (`types.rs`). -/
inductive CommitOp where
  | Create
  | Update
  | Delete
deriving DecidableEq, Repr

/-- serde's external tagging renders a unit enum variant as its name. -/
def CommitOp.serdeName : CommitOp → String
  | .Create => "Create"
  | .Update => "Update"
  | .Delete => "Delete"

/-- `Commit` (`types.rs`).  The signature is a byte vector (`Vec<u8>`). -/
structure Commit where
  did : Did
  operation : CommitOp
  collection : Nsid
  rkey : RecordKey
  record_cid : Option Cid
  prev : Option Cid
  timestamp : Timestamp
  signature : Option (List (Fin 256))
deriving DecidableEq, Repr

/-- `Commit::new`: stamps the given current time, leaves the signature
empty.  (The source reads the ambient clock; the embedding passes the
clock value explicitly.) -/
def Commit.new (did : Did) (operation : CommitOp) (collection : Nsid) (rkey : RecordKey)
    (record_cid : Option Cid) (prev : Option Cid) (now : Timestamp) : Commit :=
  { did, operation, collection, rkey, record_cid, prev, timestamp := now, signature := none }

/-- Helper: serde_json serialization of `Option<&str>`. -/
def optStrJson : Option String → Json
  | none => .null
  | some s => .str s

/-- The `serde_json::json!` object built inside `Commit::signing_bytes`
(a `BTreeMap`, hence `mkObj`). -/
def Commit.signingJson (c : Commit) : Json :=
  .obj (mkObj [
    ("did", .str c.did.val),
    ("operation", .str c.operation.serdeName),
    ("collection", .str c.collection.val),
    ("rkey", .str c.rkey.val),
    ("record_cid", optStrJson (c.record_cid.map Cid.val)),
    ("prev", optStrJson (c.prev.map Cid.val)),
    ("timestamp", .str c.timestamp)])

/-- `Commit::signing_bytes`: the canonical byte encoding that is signed. -/
def Commit.signing_bytes (c : Commit) : List Nat :=
  jsonToVec c.signingJson

/-- `Commit::cid`: digest of the signing bytes. -/
def Commit.cid (c : Commit) (sha : Sha256) : Cid :=
  Cid.fromBytesCore sha c.signing_bytes

/-- `Commit::validate`: Create/Update commits must carry a record CID. -/
def Commit.validate (c : Commit) : Except Error Unit :=
  match c.operation with
  | .Create | .Update =>
    if c.record_cid.isNone then
      .error (.InvalidCommit "Create/Update commits must have a record CID")
    else .ok ()
  | .Delete => .ok ()

/-! ## Theorems about `types.rs` -/

/-- Refinement side for C1, built from the spec's words alone: "the
canonical encoding for commits is the literal JSON object
`{did, operation, collection, rkey, record_cid, prev, timestamp}` with
values taken as their string/enum forms". -/
def specCommitSigningObject (c : Commit) : Json :=
  .obj (mkObj [
    ("did", .str c.did.val),
    ("operation", .str c.operation.serdeName),
    ("collection", .str c.collection.val),
    ("rkey", .str c.rkey.val),
    ("record_cid", optStrJson (c.record_cid.map Cid.val)),
    ("prev", optStrJson (c.prev.map Cid.val)),
    ("timestamp", .str c.timestamp)])

/-- C1: `Commit::signing_bytes` encodes exactly the seven fields `did`,
`operation`, `collection`, `rkey`, `record_cid`, `prev`, `timestamp` (as
their string/enum forms) and excludes the signature — replacing the signature
leaves the signing bytes unchanged — and `Commit::cid` is the content
digest of those signing bytes. -/
theorem commit_signing_bytes_covers_seven_fields (c : Commit)
    (sig : Option (List (Fin 256))) (sha : Sha256) :
    Commit.signing_bytes { c with signature := sig } = Commit.signing_bytes c ∧
    Commit.signing_bytes c = jsonToVec (specCommitSigningObject c) ∧
    Commit.cid c sha = Cid.fromBytesCore sha (Commit.signing_bytes c) :=
  ⟨rfl, rfl, rfl⟩

/-- Does an operation result carry a `ValidationError`-kind error? -/
def failsWithValidationErr {α : Type} : Except Error α → Bool
  | .error (.ValidationError _) => true
  | _ => false

/-- Does an operation result carry an `InvalidCommit`-kind error? -/
def failsWithInvalidCommit {α : Type} : Except Error α → Bool
  | .error (.InvalidCommit _) => true
  | _ => false

/-- C6 counterexample: a `Create` commit with no `record_cid` is rejected
by `Commit::validate`, but with an `InvalidCommit`-kind error, not the
`ValidationError` kind the claim (and §7 of the spec) names. -/
theorem commit_validate_kind_counterexample :
    ((⟨⟨"did:plc:test"⟩, .Create, ⟨"app.bsky.feed.post"⟩, ⟨"k1"⟩, none, none,
        "2025-01-01T00:00:00+00:00", none⟩ : Commit).operation = .Create) ∧
    ((⟨⟨"did:plc:test"⟩, .Create, ⟨"app.bsky.feed.post"⟩, ⟨"k1"⟩, none, none,
        "2025-01-01T00:00:00+00:00", none⟩ : Commit).record_cid = none) ∧
    failsWithValidationErr
      (⟨⟨"did:plc:test"⟩, .Create, ⟨"app.bsky.feed.post"⟩, ⟨"k1"⟩, none, none,
        "2025-01-01T00:00:00+00:00", none⟩ : Commit).validate = false ∧
    (⟨⟨"did:plc:test"⟩, .Create, ⟨"app.bsky.feed.post"⟩, ⟨"k1"⟩, none, none,
        "2025-01-01T00:00:00+00:00", none⟩ : Commit).validate =
      .error (.InvalidCommit "Create/Update commits must have a record CID") := by
  refine ⟨rfl, rfl, rfl, rfl⟩

/-- C6 amended: `Commit::validate` fails — with an `InvalidCommit`-kind
error — exactly when the operation is Create or Update and `record_cid` is
`None`; it succeeds for every Delete commit whether or not a `record_cid`
is present, and it never fails in any other way. -/
theorem commit_validate_invalid_commit_iff (c : Commit) :
    (failsWithInvalidCommit c.validate = true ↔
      (c.operation = .Create ∨ c.operation = .Update) ∧ c.record_cid = none) ∧
    (failsWithInvalidCommit c.validate = false → c.validate = .ok ()) ∧
    (c.operation = .Delete → c.validate = .ok ()) := by
  obtain ⟨did, op, coll, rkey, rcid, prev, ts, sig⟩ := c
  cases op <;> cases rcid <;>
    simp [Commit.validate, failsWithInvalidCommit]

/-- Witness for the amended C6 theorem: a Delete commit without
`record_cid` validates successfully. -/
theorem commit_validate_invalid_commit_iff_witness :
    (⟨⟨"did:plc:test"⟩, .Delete, ⟨"app.bsky.feed.post"⟩, ⟨"k1"⟩, none, none,
        "2025-01-01T00:00:00+00:00", none⟩ : Commit).validate = .ok () :=
  (commit_validate_invalid_commit_iff _).2.2 rfl

/-- C9: constructing a CID from any byte sequence succeeds without error
or panic (the digest is 32 bytes, so its 64-character hex form is long
enough for the 52-character slice), and the result is a valid CID
instance: `Cid::from_string` accepts the produced string, which begins
with the `bafy` content-address scheme tag. -/
theorem cid_from_bytes_infallible_and_valid (sha : Sha256) (data : List Nat) :
    Cid.from_bytes sha data = some (Cid.fromBytesCore sha data) ∧
    strStartsWith (Cid.fromBytesCore sha data).val "bafy" = true ∧
    Cid.from_string (Cid.fromBytesCore sha data).val = .ok (Cid.fromBytesCore sha data) := by
  have hlen : 52 ≤ (hexEncode (sha.f data)).length := by
    rw [hexEncode_length, sha.len32]; omega
  have hpre : strStartsWith (Cid.fromBytesCore sha data).val "bafy" = true := by
    show strStartsWith ("bafyrei" ++ _) "bafy" = true
    unfold strStartsWith
    apply List.isPrefixOf_iff_prefix.mpr
    rw [String.data_append]
    exact ⟨'r' :: 'e' :: 'i' :: _, rfl⟩
  refine ⟨?_, hpre, ?_⟩
  · simp only [Cid.from_bytes, hlen, if_pos]
    rfl
  · simp [Cid.from_string, hpre]

/-! ## `crates/core/src/snapshot.rs`

`Snapshot::to_json`/`from_json` are modelled at the JSON value level: the
text layer (`serde_json::to_string_pretty` / `from_str`) is the external
serde_json printer/parser pair, which is a bijection on the values the
encoder produces; the repository's own contribution is the serde derive
mapping between the structs and JSON values, embedded below. -/

/-- serde encoding of `Option<T>`: `None` is `null`. -/
def optJson {α : Type} (f : α → Json) : Option α → Json
  | none => .null
  | some a => f a

/-- serde encoding of one byte. -/
def u8Json (b : Fin 256) : Json := .num (.uint b.val)

/-- serde encoding of `Vec<u8>`. -/
def bytesJson (bs : List (Fin 256)) : Json := .arr (bs.map u8Json)

/-- serde struct decoding: fetch a named field of a JSON object. -/
def jGetField (j : Json) (name : String) : Except Error Json :=
  match j with
  | .obj fields =>
    match fields.find? (fun kv => kv.1 == name) with
    | some kv => .ok kv.2
    | none => .error (.SerializationError ("missing field " ++ name))
  | _ => .error (.SerializationError "expected object")

def jAsStr : Json → Except Error String
  | .str s => .ok s
  | _ => .error (.SerializationError "expected string")

def jAsArr : Json → Except Error (List Json)
  | .arr xs => .ok xs
  | _ => .error (.SerializationError "expected array")

def jAsU8 : Json → Except Error (Fin 256)
  | .num (.uint n) =>
    if h : n < 256 then .ok ⟨n, h⟩
    else .error (.SerializationError "integer out of u8 range")
  | _ => .error (.SerializationError "expected u8")

def jAsBytes (j : Json) : Except Error (List (Fin 256)) := do
  (← jAsArr j).mapM jAsU8

/-- serde decoding of `Option<T>`: `null` is `None`, anything else is
decoded and wrapped in `Some`. -/
def jOpt {α : Type} (f : Json → Except Error α) (j : Json) : Except Error (Option α) :=
  if j = .null then .ok none else (f j).map some

/-- serde decoding of `CommitOp` (externally tagged unit variants). -/
def CommitOp.fromJsonValue : Json → Except Error CommitOp
  | .str "Create" => .ok .Create
  | .str "Update" => .ok .Update
  | .str "Delete" => .ok .Delete
  | _ => .error (.SerializationError "unknown CommitOp")

/-- serde encoding of `Commit` (derive): fields in declaration order. -/
def Commit.toJsonValue (c : Commit) : Json :=
  .obj [
    ("did", .str c.did.val),
    ("operation", .str c.operation.serdeName),
    ("collection", .str c.collection.val),
    ("rkey", .str c.rkey.val),
    ("record_cid", optJson (fun cid => .str cid.val) c.record_cid),
    ("prev", optJson (fun cid => .str cid.val) c.prev),
    ("timestamp", .str c.timestamp),
    ("signature", optJson bytesJson c.signature)]

/-- serde decoding of `Commit` (derive). -/
def Commit.fromJsonValue (j : Json) : Except Error Commit := do
  let did ← jAsStr (← jGetField j "did")
  let operation ← CommitOp.fromJsonValue (← jGetField j "operation")
  let collection ← jAsStr (← jGetField j "collection")
  let rkey ← jAsStr (← jGetField j "rkey")
  let record_cid ← jOpt jAsStr (← jGetField j "record_cid")
  let prev ← jOpt jAsStr (← jGetField j "prev")
  let timestamp ← jAsStr (← jGetField j "timestamp")
  let signature ← jOpt jAsBytes (← jGetField j "signature")
  .ok ⟨⟨did⟩, operation, ⟨collection⟩, ⟨rkey⟩, record_cid.map Cid.mk,
    prev.map Cid.mk, timestamp, signature⟩

/-- serde encoding of `Record` (derive). -/
def Record.toJsonValue (r : Record) : Json :=
  .obj [
    ("collection", .str r.collection.val),
    ("rkey", .str r.rkey.val),
    ("value", r.value),
    ("created_at", .str r.created_at)]

/-- serde decoding of `Record` (derive); the `value` field is a
`serde_json::Value` and decodes to itself. -/
def Record.fromJsonValue (j : Json) : Except Error Record := do
  let collection ← jAsStr (← jGetField j "collection")
  let rkey ← jAsStr (← jGetField j "rkey")
  let value ← jGetField j "value"
  let created_at ← jAsStr (← jGetField j "created_at")
  .ok ⟨⟨collection⟩, ⟨rkey⟩, value, created_at⟩

/-- `Snapshot` (`snapshot.rs`). -/
structure Snapshot where
  did : String
  records : List Record
  commits : List Commit
  exported_at : String
  version : String
deriving DecidableEq, Repr

/-- `Snapshot::to_json` at the value level (derive; fields in declaration
order; the pretty-printing to text is the external serde_json layer). -/
def Snapshot.to_json (s : Snapshot) : Json :=
  .obj [
    ("did", .str s.did),
    ("records", .arr (s.records.map Record.toJsonValue)),
    ("commits", .arr (s.commits.map Commit.toJsonValue)),
    ("exported_at", .str s.exported_at),
    ("version", .str s.version)]

/-- `Snapshot::from_json` at the value level (derive). -/
def Snapshot.from_json (j : Json) : Except Error Snapshot := do
  let did ← jAsStr (← jGetField j "did")
  let records ← (← jAsArr (← jGetField j "records")).mapM Record.fromJsonValue
  let commits ← (← jAsArr (← jGetField j "commits")).mapM Commit.fromJsonValue
  let exported_at ← jAsStr (← jGetField j "exported_at")
  let version ← jAsStr (← jGetField j "version")
  .ok ⟨did, records, commits, exported_at, version⟩

theorem jAsBytes_bytesJson (bs : List (Fin 256)) : jAsBytes (bytesJson bs) = .ok bs := by
  have : ∀ l : List (Fin 256), (l.map u8Json).mapM jAsU8 = .ok l := by
    intro l
    induction l with
    | nil => rfl
    | cons b rest ih =>
      simp only [List.map_cons, List.mapM_cons, ih, jAsU8, u8Json, b.isLt, dif_pos]
      rfl
  simp only [jAsBytes, bytesJson, jAsArr, bind, Except.bind, this]

theorem bytesJson_ne_null (bs : List (Fin 256)) : ¬ bytesJson bs = Json.null := by
  simp [bytesJson]

theorem commit_fromJson_toJson (c : Commit) :
    Commit.fromJsonValue c.toJsonValue = .ok c := by
  obtain ⟨⟨did⟩, op, ⟨coll⟩, ⟨rkey⟩, rcid, prev, ts, sig⟩ := c
  cases op <;> cases rcid <;> cases prev <;> cases sig <;>
    simp [Commit.toJsonValue, Commit.fromJsonValue, jGetField, jAsStr, jOpt,
      CommitOp.fromJsonValue, CommitOp.serdeName, optJson, jAsBytes_bytesJson,
      bytesJson_ne_null, bind, Except.bind, Except.map]

theorem record_fromJson_toJson (r : Record) :
    Record.fromJsonValue r.toJsonValue = .ok r := by
  obtain ⟨⟨coll⟩, ⟨rkey⟩, v, ts⟩ := r
  simp [Record.toJsonValue, Record.fromJsonValue, jGetField, jAsStr,
    bind, Except.bind]

theorem mapMloop_fromJson_toJson {α : Type} (f : Json → Except Error α) (g : α → Json)
    (h : ∀ x, f (g x) = .ok x) (l : List α) (acc : List α) :
    List.mapM.loop f (l.map g) acc = .ok (acc.reverse ++ l) := by
  induction l generalizing acc with
  | nil => simp [List.mapM.loop, pure, Except.pure]
  | cons x rest ih =>
    simp only [List.map_cons, List.mapM.loop, h, ih]
    simp [bind, Except.bind]

theorem mapM_fromJson_toJson {α : Type} (f : Json → Except Error α) (g : α → Json)
    (h : ∀ x, f (g x) = .ok x) (l : List α) : (l.map g).mapM f = .ok l := by
  simpa using mapMloop_fromJson_toJson f g h l []

/-- C7: parsing a serialized snapshot back (`from_json ∘ to_json`)
succeeds and reproduces the snapshot — in particular the same `did` and
the commits list with the same length and order. -/
theorem snapshot_json_roundtrip (s : Snapshot) :
    Snapshot.from_json s.to_json = .ok s ∧
    ∀ s', Snapshot.from_json s.to_json = .ok s' →
      s'.did = s.did ∧ s'.commits = s.commits ∧ s'.commits.length = s.commits.length := by
  have hrt : Snapshot.from_json s.to_json = .ok s := by
    obtain ⟨did, records, commits, exported_at, version⟩ := s
    simp [Snapshot.to_json, Snapshot.from_json, jGetField, jAsStr, jAsArr,
      mapM_fromJson_toJson Record.fromJsonValue Record.toJsonValue record_fromJson_toJson,
      mapM_fromJson_toJson Commit.fromJsonValue Commit.toJsonValue commit_fromJson_toJson,
      mapMloop_fromJson_toJson Record.fromJsonValue Record.toJsonValue record_fromJson_toJson,
      mapMloop_fromJson_toJson Commit.fromJsonValue Commit.toJsonValue commit_fromJson_toJson,
      bind, Except.bind]
  refine ⟨hrt, fun s' h => ?_⟩
  rw [hrt] at h
  cases h
  exact ⟨rfl, rfl, rfl⟩

/-- Witness for C7: the round-trip evaluated on a concrete snapshot. -/
theorem snapshot_json_roundtrip_witness :
    Snapshot.from_json (Snapshot.to_json
      ⟨"did:plc:test123", [],
        [⟨⟨"did:plc:test123"⟩, .Create, ⟨"app.bsky.feed.post"⟩, ⟨"post1"⟩,
          some ⟨"bafyreiabc"⟩, none, "2025-01-01T00:00:00+00:00", some [⟨7, by decide⟩]⟩],
        "2025-01-02T00:00:00+00:00", "1.0.0"⟩) =
      .ok ⟨"did:plc:test123", [],
        [⟨⟨"did:plc:test123"⟩, .Create, ⟨"app.bsky.feed.post"⟩, ⟨"post1"⟩,
          some ⟨"bafyreiabc"⟩, none, "2025-01-01T00:00:00+00:00", some [⟨7, by decide⟩]⟩],
        "2025-01-02T00:00:00+00:00", "1.0.0"⟩ :=
  (snapshot_json_roundtrip _).1

/-- `Snapshot::from_repo` (`snapshot.rs`).  The `Repository` argument of
the source (whose definition lives in `repo.rs`'s superseded sibling and
is reflected here through its observable outputs) is represented by the
two observations `from_repo` makes: the result of `repo.get_commits()`
and `repo.did().to_string()`; the `exported_at` wall-clock string is
passed explicitly.  The records list is left empty by the source ("For
simplicity, we'll create an empty records list for now"). -/
def Snapshot.from_repo (did : String) (getCommitsResult : Except Error (List Commit))
    (now : String) : Except Error Snapshot := do
  let commits ← getCommitsResult
  let all_records : List Record := []
  .ok { did, records := all_records, commits, exported_at := now, version := "1.0.0" }

/-- C10: `Snapshot::from_repo` exports only the DID and the commit
listing; the snapshot's records list is empty no matter what the
repository holds (the repository's records are never consulted — they
are not even an input of the embedded function). -/
theorem snapshot_from_repo_records_empty (did : String) (cs : List Commit) (now : String) :
    Snapshot.from_repo did (.ok cs) now =
      .ok ⟨did, [], cs, now, "1.0.0"⟩ := rfl

/-! ## `crates/core/src/automerge_wrapper.rs`

The Automerge document itself is an external library.  Its root map is
modelled as an assoc list of scalars; `save`/`load` round-trip the
document content (the automerge contract for its opaque binary form), and
`map_range` iterates the root map in key order, as automerge does. -/

/-- The `automerge::ScalarValue` variants this wrapper can store: `tx.put`
is only ever called with `&str`, `i64`, `f64` and `bool` arguments.  (The
remaining `ScalarValue` variants are unreachable through the wrapper's
write path and are omitted from the model.) -/
inductive AmScalar where
  | str (s : String)
  | int (i : Int)
  | f64 (f : F64)
  | boolean (b : Bool)
deriving DecidableEq, Repr

/-- The root map of an Automerge document. -/
abbrev AmMap := List (String × AmScalar)

/-- `tx.put(&ROOT, key, value)`: replace the key's value, or add it. -/
def amPut (d : AmMap) (k : String) (v : AmScalar) : AmMap :=
  if d.any (fun kv => kv.1 == k) then
    d.map (fun kv => if kv.1 == k then (k, v) else kv)
  else d ++ [(k, v)]

def i64Max : Nat := 9223372036854775807

/-- `serde_json::Value::as_i64`. -/
def Json.as_i64 : Json → Option Int
  | .num (.uint n) => if n ≤ i64Max then some (n : Int) else none
  | .num (.int i) => some i
  | _ => none

/-- `serde_json::Value::as_f64` (the numeric value of the float produced
for an integer is irrelevant to every theorem; only its float-ness is). -/
def Json.as_f64 : Json → Option F64
  | .num (.uint n) => some (natToF64 n)
  | .num (.int i) => some (intToF64 i)
  | .num (.float f) => some f
  | _ => none

/-- `serde_json::Value::as_bool`. -/
def Json.as_bool : Json → Option Bool
  | .bool b => some b
  | _ => none

/-- The scalar stored for a JSON field value by the wrapper's write chain
(`if let Value::String … else if as_i64 … else if as_f64 … else if
as_bool …`); `none` means the field is skipped. -/
def scalarRepOf (v : Json) : Option AmScalar :=
  match v with
  | .str s => some (.str s)
  | v =>
    match v.as_i64 with
    | some i => some (.int i)
    | none =>
      match v.as_f64 with
      | some f => some (.f64 f)
      | none =>
        match v.as_bool with
        | some b => some (.boolean b)
        | none => none

/-- One iteration of the field loop in `from_json`/`update`. -/
def putJsonField (d : AmMap) (k : String) (v : Json) : AmMap :=
  match scalarRepOf v with
  | some sc => amPut d k sc
  | none => d

/-- `AutomergeDoc`: the document plus the full-fidelity JSON cache. -/
structure AutomergeDoc where
  doc : AmMap
  cached_json : Option Json
deriving DecidableEq, Repr

/-- `AutomergeDoc::from_json`: write each top-level scalar field of an
object into the document, cache the full value.  (The source returns
`Result` but can only fail if the automerge `put` fails, which the model
makes total.) -/
def AutomergeDoc.from_json (value : Json) : AutomergeDoc :=
  let doc :=
    match value with
    | .obj map => map.foldl (fun d kv => putJsonField d kv.1 kv.2) []
    | _ => []
  ⟨doc, some value⟩

/-- `AutomergeDoc::save`: the opaque binary changeset, represented by the
document content it encodes (automerge guarantees `load ∘ save` restores
the document). -/
def AutomergeDoc.save (d : AutomergeDoc) : AmMap := d.doc

/-- `AutomergeDoc::load`: no cache after loading. -/
def AutomergeDoc.load (bytes : AmMap) : AutomergeDoc := ⟨bytes, none⟩

/-- `AutomergeDoc::scalar_to_json`, restricted to the reachable variants:
`Str` becomes a string, `Int` a serde number (`i64.into()`: `PosInt` when
non-negative, `NegInt` otherwise), `F64` goes through
`Number::from_f64` (total on the finite floats the model carries),
`Boolean` a bool. -/
def AmScalar.scalar_to_json : AmScalar → Json
  | .str s => .str s
  | .int i => .num (if 0 ≤ i then .uint i.toNat else .int i)
  | .f64 f => .num (.float f)
  | .boolean b => .bool b

/-- `doc.map_range(&ROOT, ..)`: automerge iterates the root map sorted by
key. -/
def amMapRange (d : AmMap) : AmMap := mkObj d

/-- `AutomergeDoc::to_json`: the cache verbatim if present, otherwise the
object rebuilt from the document's top-level scalars (inserted into a
fresh serde map in iteration order). -/
def AutomergeDoc.to_json (d : AutomergeDoc) : Json :=
  match d.cached_json with
  | some cached => cached
  | none =>
    .obj (mkObj ((amMapRange d.doc).map (fun kv => (kv.1, kv.2.scalar_to_json))))

/-! Supporting lemmas for the `save`/`load`/`to_json` round-trip. -/

/-- Key-ordering relation used for serde/automerge map reasoning. -/
def keyLt {α β : Type} (a : String × α) (b : String × β) : Prop := a.1 < b.1

theorem mapInsert_append {α : Type} (k : String) (v : α) (l : List (String × α))
    (h : ∀ x ∈ l, x.1 < k) : mapInsert k v l = l ++ [(k, v)] := by
  induction l with
  | nil => rfl
  | cons hd tl ih =>
    have hk : hd.1 < k := h hd (by simp)
    obtain ⟨k', v'⟩ := hd
    simp only [mapInsert]
    rw [if_neg (asymm hk), if_neg hk.ne', ih (fun x hx => h x (by simp [hx]))]
    simp

theorem mkObj_foldl_sorted {α : Type} (l acc : List (String × α))
    (h : (acc ++ l).Pairwise (fun a b => a.1 < b.1)) :
    l.foldl (fun m kv => mapInsert kv.1 kv.2 m) acc = acc ++ l := by
  induction l generalizing acc with
  | nil => simp
  | cons hd tl ih =>
    obtain ⟨k, v⟩ := hd
    rw [List.foldl_cons]
    have hparts := List.pairwise_append.mp h
    have hlt : ∀ x ∈ acc, x.1 < k := fun x hx => hparts.2.2 x hx (k, v) (by simp)
    rw [mapInsert_append k v acc hlt]
    rw [ih (acc ++ [(k, v)]) (by simpa using h)]
    simp

/-- Inserting an already strictly-sorted field list into an empty serde
map reproduces it. -/
theorem mkObj_sorted {α : Type} (l : List (String × α))
    (h : l.Pairwise (fun a b => a.1 < b.1)) : mkObj l = l := by
  simpa using mkObj_foldl_sorted l [] (by simpa using h)

theorem amPut_fresh (d : AmMap) (k : String) (v : AmScalar)
    (h : ∀ x ∈ d, x.1 ≠ k) : amPut d k v = d ++ [(k, v)] := by
  simp only [amPut]
  rw [if_neg]
  intro hc
  rw [List.any_eq_true] at hc
  obtain ⟨x, hx, hbx⟩ := hc
  exact h x hx (by simpa using hbx)

/-- The document fields produced by the write loop for a JSON object's
field list: scalar-representable fields are stored, the rest skipped. -/
def amFieldsOf (l : List (String × Json)) : AmMap :=
  l.filterMap (fun kv => (scalarRepOf kv.2).map (fun sc => (kv.1, sc)))

theorem fromJson_fold (l : List (String × Json)) (d : AmMap)
    (hcross : ∀ x ∈ d, ∀ y ∈ l, x.1 < y.1)
    (hsort : l.Pairwise (fun a b => a.1 < b.1)) :
    l.foldl (fun d kv => putJsonField d kv.1 kv.2) d = d ++ amFieldsOf l := by
  induction l generalizing d with
  | nil => simp [amFieldsOf]
  | cons hd tl ih =>
    obtain ⟨k, v⟩ := hd
    have hbeta : List.foldl (fun d kv => putJsonField d kv.1 kv.2) d ((k, v) :: tl) =
        List.foldl (fun d kv => putJsonField d kv.1 kv.2) (putJsonField d k v) tl := rfl
    rw [hbeta]
    have hsort' := List.pairwise_cons.mp hsort
    cases hrep : scalarRepOf v with
    | none =>
      rw [(by simp [putJsonField, hrep] : putJsonField d k v = d)]
      rw [ih d (fun x hx y hy => hcross x hx y (by simp [hy])) hsort'.2]
      simp [amFieldsOf, List.filterMap_cons, hrep]
    | some sc =>
      rw [(by simp [putJsonField, hrep] : putJsonField d k v = amPut d k sc)]
      rw [amPut_fresh d k sc (fun x hx => (hcross x hx (k, v) (by simp)).ne)]
      have hc' : ∀ x ∈ d ++ [(k, sc)], ∀ y ∈ tl, x.1 < y.1 := by
        intro x hx y hy
        rcases List.mem_append.mp hx with h1 | h2
        · exact hcross x h1 y (by simp [hy])
        · have : x = (k, sc) := by simpa using h2
          subst this
          exact hsort'.1 y hy
      rw [ih (d ++ [(k, sc)]) hc' hsort'.2]
      simp [amFieldsOf, List.filterMap_cons, hrep]

theorem mem_amFieldsOf {l : List (String × Json)} {x : String × AmScalar}
    (hx : x ∈ amFieldsOf l) : ∃ v, (x.1, v) ∈ l := by
  induction l with
  | nil => exact absurd hx (by simp [amFieldsOf])
  | cons hd tl ih =>
    obtain ⟨k, v⟩ := hd
    simp only [amFieldsOf, List.filterMap_cons] at hx
    cases hrep : scalarRepOf v with
    | none =>
      rw [hrep] at hx
      obtain ⟨w, hw⟩ := ih hx
      exact ⟨w, by simp [hw]⟩
    | some sc =>
      rw [hrep] at hx
      simp only [Option.map_some', List.mem_cons] at hx
      rcases hx with h1 | h2
      · exact ⟨v, by simp [h1]⟩
      · obtain ⟨w, hw⟩ := ih h2
        exact ⟨w, by simp [hw]⟩

theorem amFieldsOf_pairwise (l : List (String × Json))
    (h : l.Pairwise (fun a b => a.1 < b.1)) :
    (amFieldsOf l).Pairwise (fun a b => a.1 < b.1) := by
  induction l with
  | nil => exact List.Pairwise.nil
  | cons hd tl ih =>
    obtain ⟨k, v⟩ := hd
    have h' := List.pairwise_cons.mp h
    simp only [amFieldsOf, List.filterMap_cons]
    cases hrep : scalarRepOf v with
    | none => exact ih h'.2
    | some sc =>
      simp only [Option.map_some']
      rw [List.pairwise_cons]
      refine ⟨fun b hb => ?_, ih h'.2⟩
      obtain ⟨w, hw⟩ := mem_amFieldsOf hb
      exact h'.1 (b.1, w) hw

/-- The values for which the wrapper's write chain stores a scalar whose
read-back reproduces the value exactly: strings, booleans, floats, and
integers within the i64 range (non-negative serde numbers are `PosInt`,
negative ones `NegInt` — mirroring serde_json's canonical forms). -/
def scalarRoundtrips (v : Json) : Bool :=
  match v with
  | .str _ => true
  | .bool _ => true
  | .num (.uint n) => decide (n ≤ i64Max)
  | .num (.int i) => decide (i < 0)
  | .num (.float _) => true
  | _ => false

theorem scalar_to_json_repOf {v : Json} (h : scalarRoundtrips v = true) :
    ∃ sc, scalarRepOf v = some sc ∧ sc.scalar_to_json = v := by
  cases v with
  | str s => exact ⟨.str s, rfl, rfl⟩
  | bool b =>
    exact ⟨.boolean b, by simp [scalarRepOf, Json.as_i64, Json.as_f64, Json.as_bool], rfl⟩
  | num jn =>
    cases jn with
    | uint n =>
      have hn : n ≤ i64Max := by simpa [scalarRoundtrips] using h
      refine ⟨.int (n : Int), ?_, ?_⟩
      · simp [scalarRepOf, Json.as_i64, hn]
      · simp [AmScalar.scalar_to_json, Int.toNat_natCast]
    | int i =>
      have hi : i < 0 := by simpa [scalarRoundtrips] using h
      refine ⟨.int i, ?_, ?_⟩
      · simp [scalarRepOf, Json.as_i64]
      · simp [AmScalar.scalar_to_json, not_le.mpr hi]
    | float f =>
      exact ⟨.f64 f, by simp [scalarRepOf, Json.as_i64, Json.as_f64], rfl⟩
  | null => simp [scalarRoundtrips] at h
  | arr xs => simp [scalarRoundtrips] at h
  | obj fs => simp [scalarRoundtrips] at h

theorem amFieldsOf_to_json (l : List (String × Json))
    (h : ∀ kv ∈ l, scalarRoundtrips kv.2 = true) :
    (amFieldsOf l).map (fun kv => (kv.1, kv.2.scalar_to_json)) = l := by
  induction l with
  | nil => rfl
  | cons hd tl ih =>
    obtain ⟨k, v⟩ := hd
    obtain ⟨sc, h1, h2⟩ := scalar_to_json_repOf (h (k, v) (by simp))
    have ih' := ih (fun kv hkv => h kv (by simp [hkv]))
    simp only [amFieldsOf, List.filterMap_cons, h1, Option.map_some', List.map_cons, h2]
    simp only [amFieldsOf] at ih'
    rw [ih']

/-- The claim's written precondition: a JSON object all of whose
top-level fields are scalars (strings, integers, floats, booleans). -/
def Json.isScalarField : Json → Bool
  | .str _ => true
  | .bool _ => true
  | .num _ => true
  | _ => false

def Json.isScalarOnlyObject : Json → Bool
  | .obj fields => fields.all (fun kv => kv.2.isScalarField)
  | _ => false

/-- C8 counterexample: the top-level integer field
`9223372036854775808 = 2^63` exceeds `i64::MAX`, so the wrapper stores it
through the lossy `as_f64` branch; after `save`/`load` the reconstructed
value is a float serde number, which is not equal to the original
`PosInt` serde number.  The object is scalar-only, yet the pipeline does
not reproduce it. -/
theorem automerge_roundtrip_counterexample :
    Json.isScalarOnlyObject (.obj [("a", .num (.uint 9223372036854775808))]) = true ∧
    (AutomergeDoc.load (AutomergeDoc.save (AutomergeDoc.from_json
        (.obj [("a", .num (.uint 9223372036854775808))])))).to_json ≠
      .obj [("a", .num (.uint 9223372036854775808))] := by
  constructor
  · rfl
  · decide

/-- C8 (amended): for every JSON object whose top-level fields are all
scalars (strings, booleans, floats, and integers within the i64 range),
`from_json` followed by `save`, `load`, `to_json` reproduces the original
object exactly.  The object is in serde_json's canonical map form
(strictly key-sorted fields, `BTreeMap`). -/
theorem automerge_scalar_roundtrip (l : List (String × Json))
    (hsort : l.Pairwise (fun a b => a.1 < b.1))
    (hval : ∀ kv ∈ l, scalarRoundtrips kv.2 = true) :
    (AutomergeDoc.load (AutomergeDoc.save (AutomergeDoc.from_json (.obj l)))).to_json =
      .obj l := by
  simp only [AutomergeDoc.from_json, AutomergeDoc.save, AutomergeDoc.load,
    AutomergeDoc.to_json, amMapRange]
  rw [fromJson_fold l [] (by simp) hsort, List.nil_append,
    mkObj_sorted _ (amFieldsOf_pairwise l hsort),
    amFieldsOf_to_json l hval, mkObj_sorted l hsort]

/-- Witness for C8 (amended): the spec's own example `{a: 1, b: "x"}`. -/
theorem automerge_scalar_roundtrip_witness :
    (AutomergeDoc.load (AutomergeDoc.save (AutomergeDoc.from_json
        (.obj [("a", .num (.uint 1)), ("b", .str "x")])))).to_json =
      .obj [("a", .num (.uint 1)), ("b", .str "x")] :=
  automerge_scalar_roundtrip _
    (by simp [List.pairwise_cons]; decide)
    (by decide)

/-! ## Decimal rendering and parsing

`repo.rs` renders commit versions with `format!("{}{}", COMMITS_PREFIX,
version)` and parses them back with `str::parse::<u64>`; the pair below
models both with a proven round-trip. -/

/-- The character for a decimal digit (codepoint 48 + digit). -/
def decDigitChar (d : Nat) : Char := Char.ofNat (48 + d % 10)

/-- Numeric value of a decimal digit character, `none` otherwise (as
`char::to_digit(10)`). -/
def decDigitVal (c : Char) : Option Nat :=
  if 48 ≤ c.toNat ∧ c.toNat ≤ 57 then some (c.toNat - 48) else none

/-- Little-endian decimal digits (empty for 0). -/
def natDigitsLE : Nat → List Nat
  | 0 => []
  | n + 1 => (n + 1) % 10 :: natDigitsLE ((n + 1) / 10)
decreasing_by exact Nat.div_lt_self (Nat.succ_pos n) (by omega)

/-- `format!("{}", n)` for `u64`. -/
def natToStr (n : Nat) : String :=
  if n = 0 then "0" else ⟨((natDigitsLE n).map decDigitChar).reverse⟩

def parseNatCore : List Char → Nat → Option Nat
  | [], acc => some acc
  | c :: cs, acc =>
    match decDigitVal c with
    | some d => parseNatCore cs (acc * 10 + d)
    | none => none

/-- `str::parse::<u64>` (an empty string is rejected; overflow is not
modelled — commit versions are bounded by repository activity). -/
def parseNat (s : String) : Option Nat :=
  match s.data with
  | [] => none
  | cs => parseNatCore cs 0

/-- Numeric value of a little-endian digit list. -/
def valLE : List Nat → Nat
  | [] => 0
  | d :: ds => d + 10 * valLE ds

theorem valLE_natDigitsLE (n : Nat) : valLE (natDigitsLE n) = n := by
  induction n using Nat.strong_induction_on with
  | _ n ih =>
    match n with
    | 0 => simp [natDigitsLE, valLE]
    | m + 1 =>
      rw [natDigitsLE, valLE, ih ((m + 1) / 10) (Nat.div_lt_self (Nat.succ_pos m) (by omega))]
      omega

theorem natDigitsLE_lt_ten (n : Nat) : ∀ d ∈ natDigitsLE n, d < 10 := by
  induction n using Nat.strong_induction_on with
  | _ n ih =>
    match n with
    | 0 => intro d hd; simp [natDigitsLE] at hd
    | m + 1 =>
      intro d hd
      rw [natDigitsLE] at hd
      rcases List.mem_cons.mp hd with h | h
      · omega
      · exact ih ((m + 1) / 10) (Nat.div_lt_self (Nat.succ_pos m) (by omega)) d h

theorem decDigitVal_decDigitChar (d : Nat) (h : d < 10) :
    decDigitVal (decDigitChar d) = some d := by
  interval_cases d <;> rfl

theorem parseNatCore_append (xs ys : List Char) (acc : Nat) :
    parseNatCore (xs ++ ys) acc =
      match parseNatCore xs acc with
      | some a => parseNatCore ys a
      | none => none := by
  induction xs generalizing acc with
  | nil => rfl
  | cons c cs ih =>
    simp only [List.cons_append, parseNatCore]
    cases decDigitVal c with
    | none => rfl
    | some d => exact ih (acc * 10 + d)

theorem parseNatCore_digits (ds : List Nat) (acc : Nat) (h : ∀ d ∈ ds, d < 10) :
    parseNatCore ((ds.map decDigitChar).reverse) acc =
      some (acc * 10 ^ ds.length + valLE ds) := by
  induction ds generalizing acc with
  | nil => simp [parseNatCore, valLE]
  | cons d ds ih =>
    rw [List.map_cons, List.reverse_cons, parseNatCore_append]
    rw [ih acc (fun x hx => h x (by simp [hx]))]
    simp only [parseNatCore, decDigitVal_decDigitChar d (h d (by simp))]
    congr 1
    simp [valLE, List.length_cons, pow_succ]
    ring

/-- The decimal round-trip used by commit-key parsing. -/
theorem parseNat_natToStr (n : Nat) : parseNat (natToStr n) = some n := by
  by_cases h0 : n = 0
  · subst h0; rfl
  · rw [natToStr, if_neg h0]
    have hne : ((natDigitsLE n).map decDigitChar).reverse ≠ [] := by
      match n with
      | m + 1 => rw [natDigitsLE]; simp
    have hcore := parseNatCore_digits (natDigitsLE n) 0 (natDigitsLE_lt_ten n)
    rw [valLE_natDigitsLE, Nat.zero_mul, Nat.zero_add] at hcore
    unfold parseNat
    show (match ((natDigitsLE n).map decDigitChar).reverse with
      | [] => none
      | cs => parseNatCore cs 0) = some n
    obtain ⟨c, cs, hl⟩ := List.exists_cons_of_ne_nil hne
    rw [hl] at hcore ⊢
    exact hcore

/-! ## `crates/core/src/repo.rs` and `records.rs`

`repo.rs` is a distinct iteration of the engine (`struct Repo`): it keys
commits by a numeric version, signs the serialized operation, and stores
everything through the async `KvStore` (`get/set/delete/list_keys/clear`).
Its companion types (`AtUri`, its `Commit`/`Record`/`Backup`, its error
enum) are not under `src/`; their shape is taken from how `repo.rs`
constructs and consumes them.  The store holds serialized bytes; the model
stores the typed values (serde round-trips these structs verbatim). -/

namespace KvRepo

/-- Error variants of this iteration's crate, modelled from their uses in
`repo.rs` (`crate::Error::InvalidOperation`) and the serde `?`
propagations. -/
inductive Err where
  | InvalidOperation (msg : String)
  | SerializationError (msg : String)
deriving DecidableEq, Repr

/-- `AtUri::new(did, collection, rkey)` with the fields `repo.rs` reads
(`uri.collection`, `uri.rkey`). -/
structure AtUri where
  did : String
  collection : String
  rkey : String
deriving DecidableEq, Repr

/-- `Record` as constructed in `create_record`/`update_record`. -/
structure Record where
  uri : AtUri
  cid : String
  value : Json
  timestamp : Nat
deriving DecidableEq, Repr

/-- `Commit` as constructed in `create_commit`. -/
structure Commit where
  did : String
  version : Nat
  prev : Option String
  data : List Nat
  sig : List Nat
  timestamp : Nat
  cid : String
deriving DecidableEq, Repr

/-- `RecordOp` (`records.rs`). -/
inductive RecordOp where
  | create (collection rkey : String) (value : Json)
  | update (collection rkey : String) (value : Json)
  | delete (collection rkey : String)
deriving DecidableEq, Repr

/-- Typed view of stored bytes: the identity string, a JSON-serialized
commit, or a JSON-serialized record. -/
inductive Val where
  | strV (s : String)
  | commitV (c : Commit)
  | recordV (r : Record)
deriving DecidableEq, Repr

/-- The key-value store contents (`HashMap`-backed `KvStore`). -/
abbrev Store := List (String × Val)

def Store.get (s : Store) (k : String) : Option Val :=
  (s.find? (fun kv => kv.1 == k)).map (fun kv => kv.2)

def Store.set (s : Store) (k : String) (v : Val) : Store :=
  (k, v) :: s.filter (fun kv => !(kv.1 == k))

def Store.del (s : Store) (k : String) : Store :=
  s.filter (fun kv => !(kv.1 == k))

def Store.listKeys (s : Store) (pre : String) : List String :=
  (s.map (fun kv => kv.1)).filter (fun k => strStartsWith k pre)

/-- `keys` module of `records.rs`. -/
def identityKey : String := "identity"

def commitsPre : String := "commits/"

def recordsPre : String := "records/"

def commit_key (version : Nat) : String := commitsPre ++ natToStr version

def record_key (collection rkey : String) : String :=
  recordsPre ++ collection ++ "/" ++ rkey

/-- `Repo::get_identity` (`String::from_utf8_lossy` of the stored bytes;
for the non-identity variants — unreachable at this key — the lossy decode
is represented by a placeholder string). -/
def get_identity (s : Store) : Option String :=
  match s.get identityKey with
  | some (.strV d) => some d
  | some (.commitV _) => some ""
  | some (.recordV _) => some ""
  | none => none

/-- `Repo::compute_cid`: `"bafyrei"` + URL-safe unpadded base64 of the
SHA-256 of the serialized value. -/
def compute_cid (sha : Sha256) (value : Json) : String :=
  "bafyrei" ++ ⟨b64urlEncode (sha.f (jsonToVec value))⟩

/-- serde encoding of `RecordOp` (externally tagged enum). -/
def RecordOp.toJson : RecordOp → Json
  | .create c r v =>
    .obj (mkObj [("Create", .obj (mkObj [("collection", .str c), ("rkey", .str r), ("value", v)]))])
  | .update c r v =>
    .obj (mkObj [("Update", .obj (mkObj [("collection", .str c), ("rkey", .str r), ("value", v)]))])
  | .delete c r =>
    .obj (mkObj [("Delete", .obj (mkObj [("collection", .str c), ("rkey", .str r)]))])

def bytesArrJson (bs : List Nat) : Json := .arr (bs.map (fun b => .num (.uint b)))

/-- The `json!` object `create_commit`/`get_commit` hash to obtain a
commit's CID (every field except `cid` itself). -/
def commit_for_cid (c : Commit) : Json :=
  .obj (mkObj [
    ("did", .str c.did),
    ("version", .num (.uint c.version)),
    ("prev", optStrJson c.prev),
    ("data", bytesArrJson c.data),
    ("sig", bytesArrJson c.sig),
    ("timestamp", .num (.uint c.timestamp))])

/-- One step of `Repo::get_latest_version`: strip the `commits/` key
namespace, parse the numeric suffix, keep the maximum. -/
def lvStep (max_version : Nat) (key : String) : Nat :=
  match stripPre commitsPre key with
  | some version_str =>
    match parseNat version_str with
    | some version => max max_version version
    | none => max_version
  | none => max_version

/-- `Repo::get_latest_version`: scan the `commits/` keys, parse the
numeric suffixes, take the maximum. -/
def get_latest_version (s : Store) : Nat :=
  (s.listKeys commitsPre).foldl lvStep 0

/-- `Repo::get_commit`: fetch, deserialize, recompute the CID. -/
def get_commit (sha : Sha256) (s : Store) (version : Nat) : Except Err (Option Commit) :=
  match s.get (commit_key version) with
  | some (.commitV c) => .ok (some { c with cid := compute_cid sha (commit_for_cid c) })
  | some _ => .error (.SerializationError "stored bytes are not a commit")
  | none => .ok none

/-- `Repo::create_commit`.  `sign` is the crypto capability's `sign`
(total: capability failures are outside the claims); `now` is the clock
reading. -/
def create_commit (sha : Sha256) (sign : List Nat → List Nat) (s : Store)
    (op : RecordOp) (now : Nat) : Except Err (Store × Commit) := do
  let did ← match get_identity s with
    | some d => Except.ok d
    | none => Except.error (.InvalidOperation "No identity initialized")
  let version := get_latest_version s + 1
  let prev ← if version > 1 then
      (get_commit sha s (version - 1)).map (fun oc => oc.map (fun c => c.cid))
    else pure none
  let data := jsonToVec op.toJson
  let sig := sign data
  let commit0 : Commit :=
    { did, version, prev, data, sig, timestamp := now, cid := "" }
  let commit := { commit0 with cid := compute_cid sha (commit_for_cid commit0) }
  let s' := s.set (commit_key version) (.commitV commit)
  .ok (s', commit)

/-- `Repo::create_record` (two clock readings: the record's and the
commit's). -/
def create_record (sha : Sha256) (sign : List Nat → List Nat) (s : Store)
    (collection rkey : String) (value : Json) (nowRec nowCommit : Nat) :
    Except Err (Store × Record) := do
  let did ← match get_identity s with
    | some d => Except.ok d
    | none => Except.error (.InvalidOperation "No identity initialized")
  let uri : AtUri := ⟨did, collection, rkey⟩
  let record : Record := { uri, cid := compute_cid sha value, value, timestamp := nowRec }
  let s₁ := s.set (record_key collection rkey) (.recordV record)
  let (s₂, _) ← create_commit sha sign s₁ (.create collection rkey record.value) nowCommit
  .ok (s₂, record)

/-- `Repo::update_record` (same sequence, `Update` op; no existence
check in this iteration). -/
def update_record (sha : Sha256) (sign : List Nat → List Nat) (s : Store)
    (collection rkey : String) (value : Json) (nowRec nowCommit : Nat) :
    Except Err (Store × Record) := do
  let did ← match get_identity s with
    | some d => Except.ok d
    | none => Except.error (.InvalidOperation "No identity initialized")
  let uri : AtUri := ⟨did, collection, rkey⟩
  let record : Record := { uri, cid := compute_cid sha value, value, timestamp := nowRec }
  let s₁ := s.set (record_key collection rkey) (.recordV record)
  let (s₂, _) ← create_commit sha sign s₁ (.update collection rkey record.value) nowCommit
  .ok (s₂, record)

/-- `Repo::delete_record`. -/
def delete_record (sha : Sha256) (sign : List Nat → List Nat) (s : Store)
    (collection rkey : String) (now : Nat) : Except Err Store := do
  let s₁ := s.del (record_key collection rkey)
  let (s₂, _) ← create_commit sha sign s₁ (.delete collection rkey) now
  .ok s₂

/-- The store right after `init_identity` on an empty store: just the
generated DID under the identity key. -/
def initStore (did : String) : Store :=
  Store.set [] identityKey (.strV did)

/-- One repository mutation with its clock readings. -/
inductive Mut where
  | create (collection rkey : String) (value : Json) (tRec tCommit : Nat)
  | update (collection rkey : String) (value : Json) (tRec tCommit : Nat)
  | delete (collection rkey : String) (t : Nat)
deriving DecidableEq, Repr

def stepMut (sha : Sha256) (sign : List Nat → List Nat) (s : Store) :
    Mut → Except Err Store
  | .create c r v t₁ t₂ => (create_record sha sign s c r v t₁ t₂).map (fun p => p.1)
  | .update c r v t₁ t₂ => (update_record sha sign s c r v t₁ t₂).map (fun p => p.1)
  | .delete c r t => delete_record sha sign s c r t

def runMuts (sha : Sha256) (sign : List Nat → List Nat) (s : Store) :
    List Mut → Except Err Store
  | [] => .ok s
  | m :: ms => do runMuts sha sign (← stepMut sha sign s m) ms

/-- `Backup` as constructed by `Repo::backup` and consumed by
`Repo::restore`. -/
structure Backup where
  version : String
  did : String
  keypair : List Nat
  commits : List Commit
  records : List Record
  timestamp : Nat
deriving DecidableEq, Repr

/-- `Repo::restore`: clear the store, import the keypair (a crypto-
capability call that does not touch the store and succeeds for any
exported bytes), store the identity, then every commit and record
verbatim.  No signature or `prev`-linkage validation is performed. -/
def restore (s : Store) (backup : Backup) : Except Err Store := do
  let s₀ : Store := []
  let s₁ := s₀.set identityKey (.strV backup.did)
  let s₂ := backup.commits.foldl
    (fun st c => st.set (commit_key c.version) (.commitV c)) s₁
  let s₃ := backup.records.foldl
    (fun st r => st.set (record_key r.uri.collection r.uri.rkey) (.recordV r)) s₂
  .ok s₃

/-! ### Store and key lemmas -/

theorem find?_filter_ne (s : Store) (k k' : String) (h : k' ≠ k) :
    (s.filter (fun kv => !(kv.1 == k))).find? (fun kv => kv.1 == k') =
      s.find? (fun kv => kv.1 == k') := by
  induction s with
  | nil => rfl
  | cons p ps ih =>
    by_cases hp : p.1 = k
    · have h2 : (p.1 == k') = false := by
        rw [beq_eq_false_iff_ne, hp]
        exact fun he => h he.symm
      have h1 : (p.1 == k) = true := by rwa [beq_iff_eq]
      simp [List.filter_cons, h1, List.find?_cons, h2, ih]
    · have h1 : (p.1 == k) = false := by rwa [beq_eq_false_iff_ne]
      simp only [List.filter_cons, h1, Bool.not_false, if_pos, List.find?_cons]
      cases hpk : (p.1 == k') with
      | true => simp [hpk]
      | false => simp [hpk, ih]

theorem Store.get_set (s : Store) (k k' : String) (v : Val) :
    (s.set k v).get k' = if k' = k then some v else s.get k' := by
  simp only [Store.set, Store.get]
  by_cases hkk : k' = k
  · subst hkk
    rw [if_pos rfl, List.find?_cons_of_pos _ (by simp)]
    rfl
  · rw [if_neg hkk, List.find?_cons_of_neg _ (by simp; exact fun he => hkk he.symm),
      find?_filter_ne s k k' hkk]

theorem Store.get_del (s : Store) (k k' : String) :
    (s.del k).get k' = if k' = k then none else s.get k' := by
  simp only [Store.del, Store.get]
  by_cases hkk : k' = k
  · subst hkk
    rw [if_pos rfl, List.find?_eq_none.mpr]
    · rfl
    · intro p hp
      have h2 := (List.mem_filter.mp hp).2
      simp only [Bool.not_eq_eq_eq_not, Bool.not_true, beq_eq_false_iff_ne] at h2
      simpa using h2
  · rw [if_neg hkk, find?_filter_ne s k k' hkk]

theorem commitKey_data (v : Nat) :
    (commit_key v).data = 'c' :: 'o' :: 'm' :: 'm' :: 'i' :: 't' :: 's' :: '/' ::(natToStr v).data := by
  show (("commits/" : String) ++ natToStr v).data = _
  rw [String.data_append]
  rfl

theorem recordKey_data (c r : String) :
    (record_key c r).data =
      'r' :: 'e' :: 'c' :: 'o' :: 'r' :: 'd' :: 's' :: '/' ::(c.data ++ '/' :: r.data) := by
  show ((("records/" : String) ++ c ++ "/") ++ r).data = _
  rw [String.data_append, String.data_append, String.data_append]
  simp

theorem commit_key_ne_identityKey (v : Nat) : commit_key v ≠ identityKey := by
  intro h
  have hd := congrArg String.data h
  rw [commitKey_data] at hd
  simp [identityKey] at hd

theorem record_key_ne_identityKey (c r : String) : record_key c r ≠ identityKey := by
  intro h
  have hd := congrArg String.data h
  rw [recordKey_data] at hd
  simp [identityKey] at hd

theorem record_key_ne_commit_key (c r : String) (v : Nat) :
    record_key c r ≠ commit_key v := by
  intro h
  have hd := congrArg String.data h
  rw [recordKey_data, commitKey_data] at hd
  simp at hd

theorem commit_key_inj {v w : Nat} (h : commit_key v = commit_key w) : v = w := by
  have hd := congrArg String.data h
  rw [commitKey_data, commitKey_data] at hd
  simp only [List.cons.injEq, true_and] at hd
  have hs : natToStr v = natToStr w := String.ext hd
  have hp := congrArg parseNat hs
  rw [parseNat_natToStr, parseNat_natToStr] at hp
  exact Option.some.inj hp

theorem strStartsWith_commit_key (v : Nat) :
    strStartsWith (commit_key v) commitsPre = true := by
  unfold strStartsWith
  rw [commitKey_data]
  show List.isPrefixOf ['c','o','m','m','i','t','s','/'] _ = true
  simp [List.isPrefixOf]

theorem not_strStartsWith_record_key (c r : String) :
    strStartsWith (record_key c r) commitsPre = false := by
  unfold strStartsWith
  rw [recordKey_data]
  show List.isPrefixOf ['c','o','m','m','i','t','s','/'] _ = false
  simp [List.isPrefixOf]

theorem not_strStartsWith_identityKey :
    strStartsWith identityKey commitsPre = false := by decide

theorem strStartsWith_record_key (c r : String) :
    strStartsWith (record_key c r) recordsPre = true := by
  unfold strStartsWith
  rw [recordKey_data]
  show List.isPrefixOf ['r','e','c','o','r','d','s','/'] _ = true
  simp [List.isPrefixOf]

theorem stripPre_commit_key (v : Nat) :
    stripPre commitsPre (commit_key v) = some (natToStr v) := by
  simp only [stripPre, strStartsWith_commit_key, if_pos]
  rw [commitKey_data]
  show some (⟨(natToStr v).data⟩ : String) = some (natToStr v)
  rfl

theorem get_foldl_set_ne {β : Type} (key : β → String) (val : β → Val) (l : List β)
    (s : Store) (k : String) (h : ∀ x ∈ l, key x ≠ k) :
    (l.foldl (fun st x => st.set (key x) (val x)) s).get k = s.get k := by
  induction l generalizing s with
  | nil => rfl
  | cons y ys ih =>
    rw [List.foldl_cons, ih (s.set (key y) (val y)) (fun x hx => h x (by simp [hx]))]
    rw [Store.get_set, if_neg (fun he => h y (by simp) he.symm)]

theorem get_foldl_set_mem {β : Type} (key : β → String) (val : β → Val) (l : List β)
    (x : β) : ∀ (s : Store), x ∈ l → (l.map key).Nodup →
    (l.foldl (fun st x => st.set (key x) (val x)) s).get (key x) = some (val x) := by
  induction l with
  | nil => intro s hx _; simp at hx
  | cons y ys ih =>
    intro s hx hnd
    rw [List.map_cons, List.nodup_cons] at hnd
    rw [List.foldl_cons]
    rcases List.mem_cons.mp hx with h1 | h2
    · subst h1
      rw [get_foldl_set_ne key val ys _ (key x)
        (fun z hz he => hnd.1 (he ▸ List.mem_map_of_mem key hz))]
      rw [Store.get_set, if_pos rfl]
    · exact ih (s.set (key y) (val y)) h2 hnd.2

set_option maxHeartbeats 1000000 in
/-- C5: `Repo::restore` first clears every key of the destination store —
the result is independent of the destination's prior contents — then
imports the backup's identity, commits and records verbatim (the keypair
is handed to the crypto capability, which does not touch the store), and
it never rejects a backup: in particular not on account of invalid commit
signatures or broken `prev` linkage, which it never inspects — the backup
here is arbitrary, its `sig` and `prev` fields unconstrained. -/
theorem restore_clears_and_imports_verbatim (s t : Store) (b : Backup)
    (hvers : (b.commits.map (fun c => c.version)).Nodup)
    (hrk : (b.records.map (fun r => record_key r.uri.collection r.uri.rkey)).Nodup) :
    restore s b = restore t b ∧
    ∃ s', restore s b = .ok s' ∧
      s'.get identityKey = some (.strV b.did) ∧
      (∀ c ∈ b.commits, s'.get (commit_key c.version) = some (.commitV c)) ∧
      (∀ r ∈ b.records, s'.get (record_key r.uri.collection r.uri.rkey) =
        some (.recordV r)) := by
  refine ⟨rfl, ?_⟩
  have hres : restore s b = .ok
      (b.records.foldl (fun st r => st.set (record_key r.uri.collection r.uri.rkey) (.recordV r))
        (b.commits.foldl (fun st c => st.set (commit_key c.version) (.commitV c))
          (Store.set [] identityKey (.strV b.did)))) := rfl
  refine ⟨_, hres, ?_, ?_, ?_⟩
  · rw [get_foldl_set_ne _ _ _ _ _ (fun r _ => record_key_ne_identityKey _ _)]
    rw [get_foldl_set_ne _ _ _ _ _ (fun c _ => commit_key_ne_identityKey _)]
    rw [Store.get_set, if_pos rfl]
  · intro c hc
    rw [get_foldl_set_ne _ _ _ _ _ (fun r _ => record_key_ne_commit_key _ _ _)]
    have hinj : Function.Injective commit_key := fun a a' ha => commit_key_inj ha
    have hnd : (b.commits.map (fun c => commit_key c.version)).Nodup := by
      have hm := hvers.map hinj
      rw [List.map_map] at hm
      exact hm
    exact get_foldl_set_mem (fun c => commit_key c.version) (fun c => Val.commitV c)
      b.commits c _ hc hnd
  · intro r hr
    exact get_foldl_set_mem (fun r => record_key r.uri.collection r.uri.rkey)
      (fun r => Val.recordV r) b.records r _ hr hrk

/-! ### The commit-version maximum -/

theorem not_strStartsWith_recordsPre_commit_key (v : Nat) :
    strStartsWith (commit_key v) recordsPre = false := by
  unfold strStartsWith
  rw [commitKey_data]
  show List.isPrefixOf ['r','e','c','o','r','d','s','/'] _ = false
  simp [List.isPrefixOf]

theorem not_commitsPre_of_recordsPre {x : String}
    (h : strStartsWith x recordsPre = true) : strStartsWith x commitsPre = false := by
  unfold strStartsWith at *
  obtain ⟨t, ht⟩ := List.isPrefixOf_iff_prefix.mp h
  have hx : x.data = 'r' :: 'e' :: 'c' :: 'o' :: 'r' :: 'd' :: 's' :: '/' ::t := by
    rw [← ht]; rfl
  rw [hx]
  show List.isPrefixOf ['c','o','m','m','i','t','s','/'] _ = false
  simp [List.isPrefixOf]

theorem lvStep_of_none {acc : Nat} {key : String}
    (hs : stripPre commitsPre key = none) : lvStep acc key = acc := by
  simp only [lvStep, hs]

theorem lvStep_of_noparse {acc : Nat} {key vs : String}
    (hs : stripPre commitsPre key = some vs) (hp : parseNat vs = none) :
    lvStep acc key = acc := by
  simp only [lvStep, hs, hp]

theorem lvStep_of_parse {acc : Nat} {key vs : String} {v : Nat}
    (hs : stripPre commitsPre key = some vs) (hp : parseNat vs = some v) :
    lvStep acc key = max acc v := by
  simp only [lvStep, hs, hp]

theorem foldl_lvStep_le (L : List String) (acc k : Nat) (hacc : acc ≤ k)
    (h : ∀ key ∈ L, ∀ vs v, stripPre commitsPre key = some vs →
      parseNat vs = some v → v ≤ k) :
    L.foldl lvStep acc ≤ k := by
  induction L generalizing acc with
  | nil => simpa using hacc
  | cons key rest ih =>
    rw [List.foldl_cons]
    refine ih (lvStep acc key) ?_ (fun ky hky => h ky (by simp [hky]))
    cases hs : stripPre commitsPre key with
    | none => rw [lvStep_of_none hs]; exact hacc
    | some vs =>
      cases hp : parseNat vs with
      | none => rw [lvStep_of_noparse hs hp]; exact hacc
      | some v =>
        rw [lvStep_of_parse hs hp]
        exact max_le hacc (h key (by simp) vs v hs hp)

theorem foldl_lvStep_acc_le (L : List String) (acc : Nat) :
    acc ≤ L.foldl lvStep acc := by
  induction L generalizing acc with
  | nil => simp
  | cons key rest ih =>
    rw [List.foldl_cons]
    refine le_trans ?_ (ih (lvStep acc key))
    cases hs : stripPre commitsPre key with
    | none => rw [lvStep_of_none hs]
    | some vs =>
      cases hp : parseNat vs with
      | none => rw [lvStep_of_noparse hs hp]
      | some v =>
        rw [lvStep_of_parse hs hp]
        exact le_max_left acc v

theorem foldl_lvStep_ge (L : List String) (acc : Nat) {key : String} {v : Nat}
    (hmem : key ∈ L) (hs : stripPre commitsPre key = some (natToStr v)) :
    v ≤ L.foldl lvStep acc := by
  induction L generalizing acc with
  | nil => simp at hmem
  | cons ky rest ih =>
    rw [List.foldl_cons]
    rcases List.mem_cons.mp hmem with h1 | h2
    · subst h1
      refine le_trans ?_ (foldl_lvStep_acc_le rest (lvStep acc key))
      rw [lvStep_of_parse hs (parseNat_natToStr v)]
      exact le_max_right acc v
    · exact ih (lvStep acc ky) h2

theorem Store.get_some_mem {s : Store} {k : String} {v : Val} (h : s.get k = some v) :
    ∃ p ∈ s, p.1 = k ∧ p.2 = v := by
  unfold Store.get at h
  cases hf : s.find? (fun kv => kv.1 == k) with
  | none => rw [hf] at h; simp at h
  | some p =>
    rw [hf] at h
    refine ⟨p, List.mem_of_find?_eq_some hf, ?_, by simpa using h⟩
    have := List.find?_some hf
    simpa using this

theorem mem_listKeys_of_get {s : Store} {k : String} {v : Val}
    (h : s.get k = some v) (hpre : strStartsWith k commitsPre = true) :
    k ∈ s.listKeys commitsPre := by
  obtain ⟨p, hp, hk, _⟩ := Store.get_some_mem h
  unfold Store.listKeys
  refine List.mem_filter.mpr ⟨?_, hpre⟩
  rw [← hk]
  exact List.mem_map_of_mem (fun kv => kv.1) hp

theorem get_latest_version_eq (s : Store) (k : Nat)
    (hkeys : ∀ p ∈ s, p.1 = identityKey ∨ strStartsWith p.1 recordsPre = true ∨
      ∃ i, 1 ≤ i ∧ i ≤ k ∧ p.1 = commit_key i)
    (hat : 1 ≤ k → ∃ c : Commit, s.get (commit_key k) = some (.commitV c)) :
    get_latest_version s = k := by
  have hub : get_latest_version s ≤ k := by
    refine foldl_lvStep_le _ 0 k (Nat.zero_le k) ?_
    intro key hkey vs v hs hp
    obtain ⟨hmm, hpre⟩ := List.mem_filter.mp hkey
    obtain ⟨p, hp2, hpk⟩ := List.mem_map.mp hmm
    rcases hkeys p hp2 with hidk | hrec | ⟨i, hi1, hik, hci⟩
    · exfalso
      rw [← hpk, hidk] at hpre
      rw [not_strStartsWith_identityKey] at hpre
      exact Bool.false_ne_true hpre
    · exfalso
      rw [← hpk, not_commitsPre_of_recordsPre hrec] at hpre
      exact Bool.false_ne_true hpre
    · rw [← hpk, hci, stripPre_commit_key] at hs
      cases hs
      rw [parseNat_natToStr] at hp
      cases hp
      omega
  rcases Nat.eq_zero_or_pos k with hk0 | hkpos
  · subst hk0
    omega
  · obtain ⟨c, hc⟩ := hat hkpos
    have hlb : k ≤ get_latest_version s :=
      foldl_lvStep_ge _ 0 (mem_listKeys_of_get hc (strStartsWith_commit_key k))
        (stripPre_commit_key k)
    omega

/-! ### The commit chain invariant -/

theorem create_commit_ok (sha : Sha256) (sign : List Nat → List Nat) (s : Store)
    (op : RecordOp) (now : Nat) (did : String) (k : Nat)
    (hid : get_identity s = some did)
    (hlv : get_latest_version s = k)
    (hat : 1 ≤ k → ∃ c : Commit, s.get (commit_key k) = some (.commitV c)) :
    ∃ c : Commit,
      create_commit sha sign s op now = .ok (s.set (commit_key (k+1)) (.commitV c), c) ∧
      c.version = k + 1 ∧
      c.cid = compute_cid sha (commit_for_cid c) ∧
      (k = 0 → c.prev = none) ∧
      (1 ≤ k → ∀ c', s.get (commit_key k) = some (.commitV c') →
        c.prev = some (compute_cid sha (commit_for_cid c'))) := by
  cases k with
  | zero =>
    refine ⟨{ did := did, version := 0 + 1, prev := none, data := jsonToVec op.toJson,
              sig := sign (jsonToVec op.toJson), timestamp := now,
              cid := compute_cid sha (commit_for_cid
                { did := did, version := 0 + 1, prev := none,
                  data := jsonToVec op.toJson, sig := sign (jsonToVec op.toJson),
                  timestamp := now, cid := "" }) }, ?_, rfl, rfl, fun _ => rfl,
      fun h => absurd h (by omega)⟩
    simp only [create_commit, hid, hlv, bind, Except.bind, pure, Except.pure]
    rw [if_neg (by omega)]
  | succ j =>
    obtain ⟨cp, hcp⟩ := hat (by omega)
    refine ⟨{ did := did, version := j + 1 + 1,
              prev := some (compute_cid sha (commit_for_cid cp)),
              data := jsonToVec op.toJson, sig := sign (jsonToVec op.toJson),
              timestamp := now,
              cid := compute_cid sha (commit_for_cid
                { did := did, version := j + 1 + 1,
                  prev := some (compute_cid sha (commit_for_cid cp)),
                  data := jsonToVec op.toJson, sig := sign (jsonToVec op.toJson),
                  timestamp := now, cid := "" }) },
      ?_, rfl, rfl, fun h => absurd h (by omega), ?_⟩
    · simp only [create_commit, hid, hlv, bind, Except.bind, pure, Except.pure]
      rw [if_pos (by omega)]
      simp only [show j + 1 + 1 - 1 = j + 1 from rfl, get_commit, hcp, Except.map]
      rfl
    · intro _ c' hc'
      rw [hcp] at hc'
      cases hc'
      rfl

/-- The reachable-state invariant after `k` successful mutations: identity
present, every key accounted for, and commits 1..k forming the linear
`prev` chain with self-consistent CIDs. -/
structure Inv (sha : Sha256) (did : String) (k : Nat) (s : Store) : Prop where
  ident : get_identity s = some did
  keys_ok : ∀ p ∈ s, p.1 = identityKey ∨ strStartsWith p.1 recordsPre = true ∨
      ∃ i, 1 ≤ i ∧ i ≤ k ∧ p.1 = commit_key i
  commits : ∀ i, 1 ≤ i → i ≤ k →
      ∃ c : Commit, s.get (commit_key i) = some (.commitV c) ∧
        c.version = i ∧
        c.cid = compute_cid sha (commit_for_cid c) ∧
        (i = 1 → c.prev = none) ∧
        (2 ≤ i → ∃ c' : Commit, s.get (commit_key (i-1)) = some (.commitV c') ∧
          c.prev = some c'.cid)

theorem get_identity_eq_get (s : Store) : get_identity s =
    match s.get identityKey with
    | some (.strV d) => some d
    | some (.commitV _) => some ""
    | some (.recordV _) => some ""
    | none => none := rfl

theorem inv_initStore (sha : Sha256) (did : String) : Inv sha did 0 (initStore did) := by
  refine ⟨rfl, ?_, ?_⟩
  · intro p hp
    left
    have : p = (identityKey, Val.strV did) := by
      simpa [initStore, Store.set] using hp
    rw [this]
  · intro i h1 h0
    omega

/-- Setting a record key (any value) preserves the invariant. -/
theorem Inv.set_record_key {sha : Sha256} {did : String} {k : Nat} {s : Store}
    (h : Inv sha did k s) (col rk : String) (v : Val) :
    Inv sha did k (s.set (record_key col rk) v) := by
  refine ⟨?_, ?_, ?_⟩
  · rw [get_identity_eq_get, Store.get_set,
      if_neg (fun he => record_key_ne_identityKey col rk he.symm)]
    exact h.ident
  · intro p hp
    simp only [Store.set, List.mem_cons] at hp
    rcases hp with h1 | h2
    · right; left
      rw [h1]
      exact strStartsWith_record_key col rk
    · exact h.keys_ok p (List.mem_of_mem_filter h2)
  · intro i h1 hk
    obtain ⟨c, hc, hv, hcid, hp1, hp2⟩ := h.commits i h1 hk
    refine ⟨c, ?_, hv, hcid, hp1, ?_⟩
    · rw [Store.get_set, if_neg (fun he => record_key_ne_commit_key col rk i he.symm)]
      exact hc
    · intro h2
      obtain ⟨c', hc', hl⟩ := hp2 h2
      refine ⟨c', ?_, hl⟩
      rw [Store.get_set, if_neg (fun he => record_key_ne_commit_key col rk (i-1) he.symm)]
      exact hc'

/-- Deleting a record key preserves the invariant. -/
theorem Inv.del_record_key {sha : Sha256} {did : String} {k : Nat} {s : Store}
    (h : Inv sha did k s) (col rk : String) :
    Inv sha did k (s.del (record_key col rk)) := by
  refine ⟨?_, ?_, ?_⟩
  · rw [get_identity_eq_get, Store.get_del,
      if_neg (fun he => record_key_ne_identityKey col rk he.symm)]
    exact h.ident
  · intro p hp
    exact h.keys_ok p (List.mem_of_mem_filter hp)
  · intro i h1 hk
    obtain ⟨c, hc, hv, hcid, hp1, hp2⟩ := h.commits i h1 hk
    refine ⟨c, ?_, hv, hcid, hp1, ?_⟩
    · rw [Store.get_del, if_neg (fun he => record_key_ne_commit_key col rk i he.symm)]
      exact hc
    · intro h2
      obtain ⟨c', hc', hl⟩ := hp2 h2
      refine ⟨c', ?_, hl⟩
      rw [Store.get_del, if_neg (fun he => record_key_ne_commit_key col rk (i-1) he.symm)]
      exact hc'

theorem get_commitV_bound {sha : Sha256} {did : String} {k : Nat} {s : Store}
    (h : Inv sha did k s) {i : Nat} {c : Commit}
    (hg : s.get (commit_key i) = some (.commitV c)) : 1 ≤ i ∧ i ≤ k := by
  obtain ⟨p, hp, hk1, _⟩ := Store.get_some_mem hg
  rcases h.keys_ok p hp with hid1 | hrec | ⟨j, hj1, hjk, hcj⟩
  · exact absurd (hk1.symm.trans hid1) (commit_key_ne_identityKey i)
  · rw [hk1] at hrec
    rw [not_strStartsWith_recordsPre_commit_key i] at hrec
    exact absurd hrec Bool.false_ne_true
  · have hji := commit_key_inj (hk1.symm.trans hcj)
    subst hji
    exact ⟨hj1, hjk⟩

theorem Inv.create_commit_step {sha : Sha256} {did : String} {k : Nat} {s : Store}
    (h : Inv sha did k s) (sign : List Nat → List Nat) (op : RecordOp) (now : Nat) :
    ∃ c : Commit,
      create_commit sha sign s op now = .ok (s.set (commit_key (k+1)) (.commitV c), c) ∧
      Inv sha did (k+1) (s.set (commit_key (k+1)) (.commitV c)) := by
  have hat : 1 ≤ k → ∃ c : Commit, s.get (commit_key k) = some (.commitV c) :=
    fun hk => (h.commits k hk le_rfl).imp (fun c hc => hc.1)
  have hlv : get_latest_version s = k := get_latest_version_eq s k h.keys_ok hat
  obtain ⟨c, hcc, hver, hcid, hp0, hpk⟩ := create_commit_ok sha sign s op now did k
    h.ident hlv hat
  refine ⟨c, hcc, ?_, ?_, ?_⟩
  · rw [get_identity_eq_get, Store.get_set,
      if_neg (fun he => commit_key_ne_identityKey (k+1) he.symm)]
    exact h.ident
  · intro p hp
    simp only [Store.set, List.mem_cons] at hp
    rcases hp with h1 | h2
    · right; right
      exact ⟨k+1, by omega, le_rfl, by rw [h1]⟩
    · rcases h.keys_ok p (List.mem_of_mem_filter h2) with ha | hb | ⟨i, hi1, hik, hci⟩
      · exact Or.inl ha
      · exact Or.inr (Or.inl hb)
      · exact Or.inr (Or.inr ⟨i, hi1, by omega, hci⟩)
  · intro i h1 hik1
    by_cases hi : i = k + 1
    · subst hi
      refine ⟨c, ?_, hver, hcid, ?_, ?_⟩
      · rw [Store.get_set, if_pos rfl]
      · intro h1e
        exact hp0 (by omega)
      · intro h2
        have hk1 : 1 ≤ k := by omega
        obtain ⟨cK, hcK, _, hcKcid, _, _⟩ := h.commits k hk1 le_rfl
        refine ⟨cK, ?_, ?_⟩
        · rw [show k + 1 - 1 = k from rfl, Store.get_set,
            if_neg (fun he => (by omega : k ≠ k + 1) (commit_key_inj he))]
          exact hcK
        · rw [hpk hk1 cK hcK, hcKcid]
    · have hik : i ≤ k := by omega
      obtain ⟨ci, hci, hv, hcidi, hpr1, hpr2⟩ := h.commits i h1 hik
      refine ⟨ci, ?_, hv, hcidi, hpr1, ?_⟩
      · rw [Store.get_set, if_neg (fun he => hi (commit_key_inj he))]
        exact hci
      · intro h2
        obtain ⟨c', hc', hl⟩ := hpr2 h2
        refine ⟨c', ?_, hl⟩
        rw [Store.get_set, if_neg (fun he => (by omega : i - 1 ≠ k + 1) (commit_key_inj he))]
        exact hc'

theorem Inv.stepMut_ok {sha : Sha256} {did : String} {k : Nat} {s : Store}
    (h : Inv sha did k s) (sign : List Nat → List Nat) (m : Mut) :
    ∃ s', stepMut sha sign s m = .ok s' ∧ Inv sha did (k+1) s' := by
  cases m with
  | create col rk v t₁ t₂ =>
    have h1 := h.set_record_key col rk
      (.recordV ⟨⟨did, col, rk⟩, compute_cid sha v, v, t₁⟩)
    obtain ⟨c, hcc, hinv⟩ := h1.create_commit_step sign (.create col rk v) t₂
    refine ⟨_, ?_, hinv⟩
    simp only [stepMut, create_record, h.ident, bind, Except.bind, pure, Except.pure,
      hcc, Except.map]
  | update col rk v t₁ t₂ =>
    have h1 := h.set_record_key col rk
      (.recordV ⟨⟨did, col, rk⟩, compute_cid sha v, v, t₁⟩)
    obtain ⟨c, hcc, hinv⟩ := h1.create_commit_step sign (.update col rk v) t₂
    refine ⟨_, ?_, hinv⟩
    simp only [stepMut, update_record, h.ident, bind, Except.bind, pure, Except.pure,
      hcc, Except.map]
  | delete col rk t =>
    have h1 := h.del_record_key col rk
    obtain ⟨c, hcc, hinv⟩ := h1.create_commit_step sign (.delete col rk) t
    refine ⟨_, ?_, hinv⟩
    simp only [stepMut, delete_record, bind, Except.bind, pure, Except.pure, hcc]

theorem Inv.runMuts_ok {sha : Sha256} {did : String} (sign : List Nat → List Nat) :
    ∀ (ms : List Mut) (k : Nat) (s : Store), Inv sha did k s →
    ∃ s', runMuts sha sign s ms = .ok s' ∧ Inv sha did (k + ms.length) s' := by
  intro ms
  induction ms with
  | nil => exact fun k s h => ⟨s, rfl, by simpa using h⟩
  | cons m rest ih =>
    intro k s h
    obtain ⟨s₁, hs₁, hinv₁⟩ := h.stepMut_ok sign m
    obtain ⟨s', hs', hinv'⟩ := ih (k+1) s₁ hinv₁
    refine ⟨s', ?_, ?_⟩
    · simp only [runMuts, bind, Except.bind, hs₁, hs']
    · have heq : k + 1 + rest.length = k + (m :: rest).length := by
        simp [List.length_cons]
        omega
      exact heq ▸ hinv'

/-- C2: starting from an empty repository (a freshly initialized identity
and nothing else), any sequence of create/update/delete mutations
succeeds, and the stored commits form a strictly linear chain: the first
commit has `prev = None`, and every later commit's `prev` is exactly the
CID of the immediately preceding commit (the digest of its
`commit_for_cid` encoding, which is also its stored `cid` field). -/
theorem commit_chain_linear (sha : Sha256) (sign : List Nat → List Nat) (did : String)
    (ms : List Mut) :
    ∃ s, runMuts sha sign (initStore did) ms = .ok s ∧
      (∀ i, 1 ≤ i → i ≤ ms.length →
        ∃ c : Commit, s.get (commit_key i) = some (.commitV c) ∧ c.version = i) ∧
      (∀ c : Commit, s.get (commit_key 1) = some (.commitV c) → c.prev = none) ∧
      (∀ i, ∀ c c' : Commit, 2 ≤ i →
        s.get (commit_key i) = some (.commitV c) →
        s.get (commit_key (i-1)) = some (.commitV c') →
        c.prev = some c'.cid ∧ c'.cid = compute_cid sha (commit_for_cid c')) := by
  obtain ⟨s, hrun, hinv⟩ := Inv.runMuts_ok sign ms 0 (initStore did) (inv_initStore sha did)
  rw [Nat.zero_add] at hinv
  refine ⟨s, hrun, ?_, ?_, ?_⟩
  · intro i h1 hik
    obtain ⟨c, hc, hv, _⟩ := hinv.commits i h1 hik
    exact ⟨c, hc, hv⟩
  · intro c hc
    have hb := get_commitV_bound hinv hc
    obtain ⟨c₁, hc₁, _, _, hp1, _⟩ := hinv.commits 1 le_rfl hb.2
    rw [hc₁] at hc
    cases hc
    exact hp1 rfl
  · intro i c c' h2 hc hc'
    have hb := get_commitV_bound hinv hc
    obtain ⟨ci, hci, _, _, _, hlink⟩ := hinv.commits i hb.1 hb.2
    rw [hci] at hc
    cases hc
    obtain ⟨cp, hcp, hl⟩ := hlink h2
    rw [hcp] at hc'
    cases hc'
    obtain ⟨cq, hcq, _, hcidq, _, _⟩ := hinv.commits (i-1) (by omega) (by omega)
    rw [hcp] at hcq
    cases hcq
    exact ⟨hl, hcidq⟩

/-- Witness for C5: a concrete backup (with a dangling `prev` and an
arbitrary signature) is restored identically over two different
destination stores. -/
theorem restore_clears_and_imports_verbatim_witness :
    ((([⟨"d", 1, some "bafyBROKEN", [0], [9, 9], 5, "c1"⟩] : List Commit).map
        (fun c => c.version)).Nodup) ∧
    restore [] ⟨"1.0", "did:key:zW", [1, 2], [⟨"d", 1, some "bafyBROKEN", [0], [9, 9], 5, "c1"⟩], [], 7⟩ =
      restore [("stale", .strV "junk")]
        ⟨"1.0", "did:key:zW", [1, 2], [⟨"d", 1, some "bafyBROKEN", [0], [9, 9], 5, "c1"⟩], [], 7⟩ :=
  ⟨by decide,
    (restore_clears_and_imports_verbatim [] [("stale", .strV "junk")]
      ⟨"1.0", "did:key:zW", [1, 2], [⟨"d", 1, some "bafyBROKEN", [0], [9, 9], 5, "c1"⟩], [], 7⟩
      (by decide) (by decide)).1⟩

end KvRepo

/-! ## The Repository Engine (§4.4) — spec-modelled

`snapshot.rs`, the example program and the wasm bindings compile against
`crate::repo::Repository`, the engine described in §4.4 of the spec;
the `repo.rs` under `src/` is a superseded sibling iteration (`Repo`
above), and the `Repository` definition itself is not under `src/` — only
its callers and tests are.  The engine is therefore modelled from the
spec's words and marked accordingly; it reuses the `types.rs` data model
(`Did`, `Nsid`, `RecordKey`, `Record`, `Commit`), which is under `src/`. -/

/-- Modelled from the spec: a storage entry of the Repository engine under
the §6 keys `"head"`, `"record:{collection}/{key}"`, `"commit:{cid}"`. -/
inductive StoreEntry where
  | recE (r : Record)
  | comE (c : Commit)
  | headE (cid : String)
deriving DecidableEq, Repr

/-- Modelled from the spec: the `Repository` engine state of §4.4 —
`{did, head: Option<CID>, materialized: Map<path, Record>}` plus the
storage-capability contents. -/
structure Repository where
  did : Did
  head : Option Cid
  materialized : List (String × Record)
  store : List (String × StoreEntry)
deriving DecidableEq, Repr

def storeSet (s : List (String × StoreEntry)) (k : String) (v : StoreEntry) :
    List (String × StoreEntry) :=
  (k, v) :: s.filter (fun kv => !(kv.1 == k))

def storeDel (s : List (String × StoreEntry)) (k : String) :
    List (String × StoreEntry) :=
  s.filter (fun kv => !(kv.1 == k))

def matLookup (m : List (String × Record)) (p : String) : Option Record :=
  (m.find? (fun kv => kv.1 == p)).map (fun kv => kv.2)

def matInsert (m : List (String × Record)) (p : String) (r : Record) :
    List (String × Record) :=
  (p, r) :: m.filter (fun kv => !(kv.1 == p))

def matRemove (m : List (String × Record)) (p : String) : List (String × Record) :=
  m.filter (fun kv => !(kv.1 == p))

/-- Modelled from the spec: `create_record` (§4.4) — "validates the
record; computes its CID; rejects with `ValidationError` if `path()`
already exists in the materialized map (no implicit overwrite); builds and
signs a `Create` commit chained to the current head; persists record then
commit; advances head; inserts into the materialized map; returns the
record's CID". -/
def Repository.create_record (repo : Repository) (sha : Sha256)
    (sign : List Nat → List (Fin 256)) (collection : Nsid) (rkey : RecordKey)
    (value : Json) (now : Timestamp) : Except Error (Repository × Cid) := do
  let record : Record := { collection, rkey, value, created_at := now }
  record.validate
  let cid := record.cid sha
  if (matLookup repo.materialized record.path).isSome then
    throw (.ValidationError ("Record already exists at path: " ++ record.path))
  let commit0 := Commit.new repo.did .Create collection rkey (some cid) repo.head now
  let commit := { commit0 with signature := some (sign commit0.signing_bytes) }
  let ccid := commit.cid sha
  let st₁ := storeSet repo.store ("record:" ++ record.path) (.recE record)
  let st₂ := storeSet st₁ ("commit:" ++ ccid.val) (.comE commit)
  let st₃ := storeSet st₂ "head" (.headE ccid.val)
  .ok ({ repo with
          head := some ccid,
          materialized := matInsert repo.materialized record.path record,
          store := st₃ }, cid)

/-- Modelled from the spec: `update_record` (§4.4) — "requires the path to
already exist (`NotFound` otherwise); otherwise identical sequence to
create but emits an `Update` commit" (whole-value replacement). -/
def Repository.update_record (repo : Repository) (sha : Sha256)
    (sign : List Nat → List (Fin 256)) (collection : Nsid) (rkey : RecordKey)
    (value : Json) (now : Timestamp) : Except Error (Repository × Cid) := do
  let record : Record := { collection, rkey, value, created_at := now }
  if (matLookup repo.materialized record.path).isNone then
    throw (.NotFound ("No record at path: " ++ record.path))
  record.validate
  let cid := record.cid sha
  let commit0 := Commit.new repo.did .Update collection rkey (some cid) repo.head now
  let commit := { commit0 with signature := some (sign commit0.signing_bytes) }
  let ccid := commit.cid sha
  let st₁ := storeSet repo.store ("record:" ++ record.path) (.recE record)
  let st₂ := storeSet st₁ ("commit:" ++ ccid.val) (.comE commit)
  let st₃ := storeSet st₂ "head" (.headE ccid.val)
  .ok ({ repo with
          head := some ccid,
          materialized := matInsert repo.materialized record.path record,
          store := st₃ }, cid)

/-- Modelled from the spec: `delete_record` (§4.4) — "requires existence
(`NotFound` otherwise); emits a `Delete` commit (no `record_cid`); removes
the persisted record and the materialized entry; advances head". -/
def Repository.delete_record (repo : Repository) (sha : Sha256)
    (sign : List Nat → List (Fin 256)) (collection : Nsid) (rkey : RecordKey)
    (now : Timestamp) : Except Error Repository := do
  let path := collection.val ++ "/" ++ rkey.val
  if (matLookup repo.materialized path).isNone then
    throw (.NotFound ("No record at path: " ++ path))
  let commit0 := Commit.new repo.did .Delete collection rkey none repo.head now
  let commit := { commit0 with signature := some (sign commit0.signing_bytes) }
  let ccid := commit.cid sha
  let st₁ := storeDel repo.store ("record:" ++ path)
  let st₂ := storeSet st₁ ("commit:" ++ ccid.val) (.comE commit)
  let st₃ := storeSet st₂ "head" (.headE ccid.val)
  .ok { repo with
        head := some ccid,
        materialized := matRemove repo.materialized path,
        store := st₃ }

/-- A fixed 32-byte digest instance used by concrete witnesses. -/
def shaZero : Sha256 := ⟨fun _ => List.replicate 32 0, fun _ => List.length_replicate 32 0⟩

/-- C3 (spec-modelled): `create_record` on a path that already exists in
the materialized view fails with a `ValidationError` for every supplied
value (a non-object value also fails validation first, again with a
`ValidationError`), and — the operation returning an error and no new
state — the existing record is not overwritten. -/
theorem create_record_existing_path_validation_error
    (repo : Repository) (sha : Sha256) (sign : List Nat → List (Fin 256))
    (collection : Nsid) (rkey : RecordKey) (value : Json) (now : Timestamp)
    (hex : (matLookup repo.materialized (collection.val ++ "/" ++ rkey.val)).isSome = true) :
    ∃ msg, Repository.create_record repo sha sign collection rkey value now =
      .error (.ValidationError msg) := by
  cases hobj : value.isObj with
  | false =>
    refine ⟨"Record value must be a JSON object", ?_⟩
    simp only [Repository.create_record, Record.validate, Record.path, hobj,
      Bool.false_eq_true, if_neg, bind, Except.bind]
    rfl
  | true =>
    refine ⟨"Record already exists at path: " ++ (collection.val ++ "/" ++ rkey.val), ?_⟩
    simp only [Repository.create_record, Record.validate, Record.path, hobj, if_pos,
      bind, Except.bind, hex, throw, throwThe, MonadExcept.throw]

/-- Witness for C3: creating at the already-present path
`app.test.col/k1` fails with `ValidationError`. -/
theorem create_record_existing_path_validation_error_witness :
    ((matLookup [("app.test.col/k1", ⟨⟨"app.test.col"⟩, ⟨"k1"⟩, .obj [], "t0"⟩)]
        ("app.test.col" ++ "/" ++ "k1")).isSome = true) ∧
    ∃ msg, Repository.create_record
        ⟨⟨"did:plc:w"⟩, none, [("app.test.col/k1", ⟨⟨"app.test.col"⟩, ⟨"k1"⟩, .obj [], "t0"⟩)], []⟩
        shaZero (fun _ => []) ⟨"app.test.col"⟩ ⟨"k1"⟩ (.obj [("text", .str "x")]) "t1" =
      .error (.ValidationError msg) :=
  ⟨by decide,
    create_record_existing_path_validation_error
      ⟨⟨"did:plc:w"⟩, none, [("app.test.col/k1", ⟨⟨"app.test.col"⟩, ⟨"k1"⟩, .obj [], "t0"⟩)], []⟩
      shaZero (fun _ => []) ⟨"app.test.col"⟩ ⟨"k1"⟩ (.obj [("text", .str "x")]) "t1"
      (by decide)⟩

/-- C4 (spec-modelled): `update_record` and `delete_record` on a path with
no existing record both fail with `NotFound` — for every supplied value —
and, the operations returning an error and no new state, the stored state
is unchanged. -/
theorem update_delete_nonexistent_not_found
    (repo : Repository) (sha : Sha256) (sign : List Nat → List (Fin 256))
    (collection : Nsid) (rkey : RecordKey) (value : Json) (now : Timestamp)
    (hne : (matLookup repo.materialized (collection.val ++ "/" ++ rkey.val)).isNone = true) :
    (∃ m₁, Repository.update_record repo sha sign collection rkey value now =
      .error (.NotFound m₁)) ∧
    (∃ m₂, Repository.delete_record repo sha sign collection rkey now =
      .error (.NotFound m₂)) := by
  constructor
  · refine ⟨"No record at path: " ++ (collection.val ++ "/" ++ rkey.val), ?_⟩
    simp only [Repository.update_record, Record.path, hne, if_pos, bind, Except.bind,
      throw, throwThe, MonadExcept.throw]
  · refine ⟨"No record at path: " ++ (collection.val ++ "/" ++ rkey.val), ?_⟩
    simp only [Repository.delete_record, hne, if_pos, bind, Except.bind,
      throw, throwThe, MonadExcept.throw]

/-- Witness for C4: updating and deleting `app.test.col/nope` in a
repository with an empty materialized view both fail with `NotFound`. -/
theorem update_delete_nonexistent_not_found_witness :
    ((matLookup ([] : List (String × Record)) ("app.test.col" ++ "/" ++ "nope")).isNone = true) ∧
    (∃ m₁, Repository.update_record ⟨⟨"did:plc:w"⟩, none, [], []⟩ shaZero (fun _ => [])
        ⟨"app.test.col"⟩ ⟨"nope"⟩ (.obj []) "t1" = .error (.NotFound m₁)) ∧
    (∃ m₂, Repository.delete_record ⟨⟨"did:plc:w"⟩, none, [], []⟩ shaZero (fun _ => [])
        ⟨"app.test.col"⟩ ⟨"nope"⟩ "t1" = .error (.NotFound m₂)) :=
  ⟨by decide,
    (update_delete_nonexistent_not_found ⟨⟨"did:plc:w"⟩, none, [], []⟩ shaZero (fun _ => [])
      ⟨"app.test.col"⟩ ⟨"nope"⟩ (.obj []) "t1" (by decide)).1,
    (update_delete_nonexistent_not_found ⟨⟨"did:plc:w"⟩, none, [], []⟩ shaZero (fun _ => [])
      ⟨"app.test.col"⟩ ⟨"nope"⟩ (.obj []) "t1" (by decide)).2⟩

end Breo
